import Mathlib

/-!
# Verification of the mlpack `NeighborSearch` engine specification

A shallow embedding of the neighbor-search engine declared in
`src/mlpack/methods/neighbor_search/neighbor_search.hpp`.  The header file
declares the class interface (constructors, `Search`, `ComputeBaseCase`,
`ComputeDualNeighborsRecursion`, `ComputeSingleNeighborsRecursion`,
`InsertNeighbor`, the permutation vectors and the `QueryStat` scratch bound);
the implementation file `neighbor_search_impl.hpp` is included by the header
but is not part of the available sources, so the bodies of these operations
are modelled from the specification's description of them.  Each such
definition carries a doc comment starting with `Modelled from the spec:`.

Distances are modelled as rationals (the C++ code uses `double`; the
properties under verification are order-theoretic, not about rounding).
-/

namespace Mlpack

/-- Modelled from the spec: the RankingPolicy / SortPolicy template parameter
("nearest vs. furthest variants are both valid instantiations", §4.1, §9).
The engine consults it only through `isBetter` and the worst-sentinel. -/
inductive Pol where
  | nearest
  | furthest
deriving DecidableEq, Repr

/-- Modelled from the spec: the strict `IsBetter(a, b)` total order over
distances (§4.1): nearest prefers smaller distances, furthest larger. -/
def Pol.isBetter : Pol → ℚ → ℚ → Bool
  | .nearest, a, b => decide (a < b)
  | .furthest, a, b => decide (b < a)

/-- The non-strict companion of `Pol.isBetter`: `leQ pol a b` says that `a`
is at least as good as `b` (i.e. `b` is not strictly better than `a`). -/
def leQ (pol : Pol) (a b : ℚ) : Prop := pol.isBetter b a = false

instance (pol : Pol) (a b : ℚ) : Decidable (leQ pol a b) :=
  inferInstanceAs (Decidable (_ = false))

theorem leQ_refl (pol : Pol) (a : ℚ) : leQ pol a a := by
  cases pol <;> simp [leQ, Pol.isBetter]

theorem leQ_trans {pol : Pol} {a b c : ℚ} (h₁ : leQ pol a b) (h₂ : leQ pol b c) :
    leQ pol a c := by
  cases pol <;> simp [leQ, Pol.isBetter] at * <;> linarith

theorem leQ_total (pol : Pol) (a b : ℚ) : leQ pol a b ∨ leQ pol b a := by
  cases pol <;> simp [leQ, Pol.isBetter] <;> exact le_total _ _

theorem leQ_antisymm {pol : Pol} {a b : ℚ} (h₁ : leQ pol a b) (h₂ : leQ pol b a) :
    a = b := by
  cases pol <;> simp [leQ, Pol.isBetter] at * <;> linarith

instance (pol : Pol) : IsTotal ℚ (leQ pol) := ⟨leQ_total pol⟩

instance (pol : Pol) : IsTrans ℚ (leQ pol) := ⟨fun _ _ _ => leQ_trans⟩

instance (pol : Pol) : IsAntisymm ℚ (leQ pol) := ⟨fun _ _ => leQ_antisymm⟩

theorem isBetter_asymm {pol : Pol} {a b : ℚ} (h : pol.isBetter a b = true) :
    pol.isBetter b a = false := by
  cases pol <;> simp [Pol.isBetter] at * <;> linarith

theorem isBetter_trans {pol : Pol} {a b c : ℚ} (h₁ : pol.isBetter a b = true)
    (h₂ : pol.isBetter b c = true) : pol.isBetter a c = true := by
  cases pol <;> simp [Pol.isBetter] at * <;> linarith

theorem leQ_of_isBetter {pol : Pol} {a b : ℚ} (h : pol.isBetter a b = true) :
    leQ pol a b := isBetter_asymm h

theorem leQ_of_not_isBetter {pol : Pol} {a b : ℚ} (h : pol.isBetter a b = false) :
    leQ pol b a := h

theorem isBetter_of_isBetter_leQ {pol : Pol} {a b c : ℚ}
    (h₁ : pol.isBetter a b = true) (h₂ : leQ pol b c) : pol.isBetter a c = true := by
  cases pol <;> simp [leQ, Pol.isBetter] at * <;> linarith

theorem isBetter_of_leQ_isBetter {pol : Pol} {a b c : ℚ}
    (h₁ : leQ pol a b) (h₂ : pol.isBetter b c = true) : pol.isBetter a c = true := by
  cases pol <;> simp [leQ, Pol.isBetter] at * <;> linarith

theorem not_isBetter_of_leQ {pol : Pol} {a b : ℚ} (h : leQ pol b a) :
    pol.isBetter a b = false := h

/-- Point of a dataset: a d-dimensional vector (a column of an `arma::mat`). -/
abbrev Pt := List ℚ

/-- The default metric of the header (`SquaredEuclideanDistance`), used to
instantiate witnesses; the development is parametric in the metric. -/
def sqEuclid (x y : Pt) : ℚ :=
  ((List.zip x y).map fun p => (p.1 - p.2) * (p.1 - p.2)).sum

/-- A per-query candidate list: (reference index, distance) pairs,
best-first. -/
abbrev CL := List (Nat × ℚ)

/-- Modelled from the spec: sorted insertion into a candidate list; the new
pair goes in front of the first strictly-worse entry, i.e. after any entries
tied with it (arrival-order tie-break, §9). -/
def insertSorted (pol : Pol) (i : Nat) (d : ℚ) : CL → CL
  | [] => [(i, d)]
  | e :: rest =>
      if pol.isBetter d e.2 then (i, d) :: e :: rest
      else e :: insertSorted pol i d rest

/-- Modelled from the spec: `InsertNeighbor` (header line 228) — insert a
candidate at the position implied by its rank, shifting the tail right and
dropping the last element if the list was full (§4.3 Insertion). -/
def insertNeighbor (pol : Pol) (k : Nat) (l : CL) (i : Nat) (d : ℚ) : CL :=
  (insertSorted pol i d l).take k

/-- The position at which `insertSorted` places a new distance. -/
def insertPos (pol : Pol) (d : ℚ) : CL → Nat
  | [] => 0
  | e :: rest => if pol.isBetter d e.2 then 0 else insertPos pol d rest + 1

/-- The list's current worst retained distance: the last (worst) entry when
the list is full, and `none` (the RankingPolicy worst sentinel, which loses
every comparison) while the list is not yet full. -/
def listBound (k : Nat) (l : CL) : Option ℚ :=
  if l.length < k then none else (l.getLast?).map Prod.snd

/-- Comparison of a candidate distance against an optional bound; the `none`
sentinel ("nothing found yet") loses every comparison (§4.1). -/
def betterOpt (pol : Pol) (d : ℚ) : Option ℚ → Bool
  | none => true
  | some w => pol.isBetter d w

/-- A candidate list is sorted best-first per the policy. -/
def sortedCL (pol : Pol) (l : CL) : Prop :=
  l.Chain' fun a b => leQ pol a.2 b.2

instance (pol : Pol) : IsTrans (Nat × ℚ) (fun a b => leQ pol a.2 b.2) :=
  ⟨fun _ _ _ h₁ h₂ => leQ_trans h₁ h₂⟩

theorem sortedCL_iff_pairwise {pol : Pol} {l : CL} :
    sortedCL pol l ↔ l.Pairwise fun a b => leQ pol a.2 b.2 :=
  List.chain'_iff_pairwise

/-! ### Lemmas about sorted insertion -/

theorem insertSorted_perm (pol : Pol) (i : Nat) (d : ℚ) (l : CL) :
    (insertSorted pol i d l).Perm ((i, d) :: l) := by
  induction l with
  | nil => simp [insertSorted]
  | cons e rest ih =>
      by_cases h : pol.isBetter d e.2 = true
      · simp [insertSorted, h]
      · simp only [insertSorted, Bool.not_eq_true] at *
        simp only [h, if_false]
        exact (ih.cons e).trans (List.Perm.swap _ _ _)

theorem mem_insertSorted {pol : Pol} {i : Nat} {d : ℚ} {l : CL} {e : Nat × ℚ} :
    e ∈ insertSorted pol i d l ↔ e = (i, d) ∨ e ∈ l := by
  rw [(insertSorted_perm pol i d l).mem_iff]; simp

theorem length_insertSorted (pol : Pol) (i : Nat) (d : ℚ) (l : CL) :
    (insertSorted pol i d l).length = l.length + 1 :=
  (insertSorted_perm pol i d l).length_eq

theorem insertSorted_eq_take_drop (pol : Pol) (i : Nat) (d : ℚ) (l : CL) :
    insertSorted pol i d l =
      l.take (insertPos pol d l) ++ (i, d) :: l.drop (insertPos pol d l) := by
  induction l with
  | nil => simp [insertSorted, insertPos]
  | cons e rest ih =>
      by_cases h : pol.isBetter d e.2 = true
      · simp [insertSorted, insertPos, h]
      · simp only [Bool.not_eq_true] at h
        simp [insertSorted, insertPos, h, ih]

theorem insertPos_le_length (pol : Pol) (d : ℚ) (l : CL) :
    insertPos pol d l ≤ l.length := by
  induction l with
  | nil => simp [insertPos]
  | cons e rest ih =>
      by_cases h : pol.isBetter d e.2 = true
      · simp [insertPos, h]
      · simp only [Bool.not_eq_true] at h
        simp [insertPos, h, Nat.succ_le_succ ih]

theorem insertSorted_append_of_all {pol : Pol} {i : Nat} {d : ℚ} {l : CL}
    (h : ∀ e ∈ l, pol.isBetter d e.2 = false) :
    insertSorted pol i d l = l ++ [(i, d)] := by
  induction l with
  | nil => simp [insertSorted]
  | cons e rest ih =>
      have he : pol.isBetter d e.2 = false := h e (by simp)
      simp [insertSorted, he, ih fun e' he' => h e' (by simp [he'])]

theorem mem_take_insertPos_leQ {pol : Pol} {d : ℚ} {l : CL} :
    ∀ e ∈ l.take (insertPos pol d l), leQ pol e.2 d := by
  induction l with
  | nil => simp
  | cons f rest ih =>
      by_cases h : pol.isBetter d f.2 = true
      · simp [insertPos, h]
      · simp only [Bool.not_eq_true] at h
        intro e he
        simp only [insertPos, h, if_false, List.take_succ_cons] at he
        cases List.mem_cons.1 he with
        | inl h1 => rw [h1]; exact leQ_of_not_isBetter h
        | inr h2 => exact ih e h2

theorem mem_drop_insertPos_leQ {pol : Pol} {d : ℚ} {l : CL} (hs : sortedCL pol l) :
    ∀ e ∈ l.drop (insertPos pol d l), leQ pol d e.2 := by
  induction l with
  | nil => simp
  | cons f rest ih =>
      by_cases h : pol.isBetter d f.2 = true
      · intro e he
        simp only [insertPos, h, if_true, List.drop_zero] at he
        have hpw := sortedCL_iff_pairwise.1 hs
        cases List.mem_cons.1 he with
        | inl h1 => rw [h1]; exact leQ_of_isBetter h
        | inr h2 => exact leQ_trans (leQ_of_isBetter h) ((List.pairwise_cons.1 hpw).1 e h2)
      · simp only [Bool.not_eq_true] at h
        intro e he
        simp only [insertPos, h, if_false, List.drop_succ_cons] at he
        exact ih ((List.chain'_cons'.1 hs).2) e he

theorem sortedCL_insertSorted {pol : Pol} {l : CL} (hs : sortedCL pol l)
    (i : Nat) (d : ℚ) : sortedCL pol (insertSorted pol i d l) := by
  rw [sortedCL_iff_pairwise, insertSorted_eq_take_drop, List.pairwise_append]
  have hsplit : l.Pairwise fun a b => leQ pol a.2 b.2 := sortedCL_iff_pairwise.1 hs
  rw [← List.take_append_drop (insertPos pol d l) l, List.pairwise_append] at hsplit
  refine ⟨hsplit.1, ?_, ?_⟩
  · rw [List.pairwise_cons]
    exact ⟨fun e he => mem_drop_insertPos_leQ hs e he, hsplit.2.1⟩
  · intro a ha b hb
    cases List.mem_cons.1 hb with
    | inl h1 => rw [h1]; exact mem_take_insertPos_leQ a ha
    | inr h2 => exact hsplit.2.2 a ha b h2

theorem sortedCL_take {pol : Pol} {l : CL} (hs : sortedCL pol l) (n : Nat) :
    sortedCL pol (l.take n) := by
  rw [sortedCL_iff_pairwise] at hs ⊢
  exact hs.sublist (List.take_sublist n l)

theorem sortedCL_insertNeighbor {pol : Pol} {l : CL} (hs : sortedCL pol l)
    (k : Nat) (i : Nat) (d : ℚ) : sortedCL pol (insertNeighbor pol k l i d) :=
  sortedCL_take (sortedCL_insertSorted hs i d) k

theorem length_insertNeighbor (pol : Pol) (k : Nat) (l : CL) (i : Nat) (d : ℚ) :
    (insertNeighbor pol k l i d).length = min (l.length + 1) k := by
  simp [insertNeighbor, length_insertSorted]
  omega

theorem length_insertNeighbor_le (pol : Pol) (k : Nat) (l : CL) (i : Nat) (d : ℚ) :
    (insertNeighbor pol k l i d).length ≤ k := by
  simp [length_insertNeighbor]

theorem mem_insertNeighbor {pol : Pol} {k : Nat} {l : CL} {i : Nat} {d : ℚ}
    {e : Nat × ℚ} (h : e ∈ insertNeighbor pol k l i d) : e = (i, d) ∨ e ∈ l :=
  mem_insertSorted.1 ((List.take_subset _ _) h)

theorem insertNeighbor_of_lt {pol : Pol} {k : Nat} {l : CL} (h : l.length < k)
    (i : Nat) (d : ℚ) : insertNeighbor pol k l i d = insertSorted pol i d l := by
  unfold insertNeighbor
  exact List.take_of_length_le (by rw [length_insertSorted]; omega)

theorem insertNeighbor_noop {pol : Pol} {k : Nat} {l : CL} (hlen : l.length = k)
    (h : ∀ e ∈ l, pol.isBetter d e.2 = false) (i : Nat) :
    insertNeighbor pol k l i d = l := by
  unfold insertNeighbor
  rw [insertSorted_append_of_all h]
  subst hlen
  rw [List.take_left]

theorem nodup_fst_insertNeighbor {pol : Pol} {k : Nat} {l : CL} {i : Nat} {d : ℚ}
    (hn : (l.map Prod.fst).Nodup) (hi : i ∉ l.map Prod.fst) :
    ((insertNeighbor pol k l i d).map Prod.fst).Nodup := by
  have hperm : ((insertSorted pol i d l).map Prod.fst).Perm (i :: l.map Prod.fst) :=
    (insertSorted_perm pol i d l).map Prod.fst
  have hnd : ((insertSorted pol i d l).map Prod.fst).Nodup :=
    hperm.nodup_iff.2 (List.nodup_cons.2 ⟨hi, hn⟩)
  have : (insertNeighbor pol k l i d).map Prod.fst =
      ((insertSorted pol i d l).map Prod.fst).take k := by
    simp [insertNeighbor, List.map_take]
  rw [this]
  exact hnd.sublist (List.take_sublist _ _)

/-! ### Lemmas about the list's worst retained distance -/

theorem listBound_some {k : Nat} {l : CL} {w : ℚ} (h : listBound k l = some w) :
    k ≤ l.length ∧ ∃ p, l.getLast? = some p ∧ p.2 = w := by
  unfold listBound at h
  split at h
  · simp at h
  · next hlen =>
      rcases Option.map_eq_some'.1 h with ⟨p, hp, hw⟩
      exact ⟨by omega, p, hp, hw⟩

theorem listBound_none {k : Nat} {l : CL} (h : l.length < k) : listBound k l = none := by
  simp [listBound, h]

theorem listBound_some_of_full {k : Nat} {l : CL} (hlen : l.length = k) (hk : 0 < k) :
    ∃ w, listBound k l = some w := by
  have hne : l ≠ [] := by
    intro h; rw [h] at hlen; simp at hlen; omega
  refine ⟨(l.getLast hne).2, ?_⟩
  simp [listBound, hlen, List.getLast?_eq_getLast_of_ne_nil hne]

theorem sorted_leQ_getLast {pol : Pol} : ∀ {l : CL}, sortedCL pol l →
    ∀ p, l.getLast? = some p → ∀ e ∈ l, leQ pol e.2 p.2 := by
  intro l
  induction l with
  | nil => intro _ p hp; simp at hp
  | cons f rest ih =>
      intro hs p hp e he
      cases rest with
      | nil =>
          simp at hp
          cases List.mem_singleton.1 he
          rw [← hp]
          exact leQ_refl pol _
      | cons g rest' =>
          have hp' : (g :: rest').getLast? = some p := by
            rw [← List.getLast?_cons_cons]; exact hp
          have hs' : sortedCL pol (g :: rest') := (List.chain'_cons'.1 hs).2
          cases List.mem_cons.1 he with
          | inl h1 =>
              have hpmem : p ∈ g :: rest' := by
                rcases List.mem_getLast?_eq_getLast hp' with ⟨hne, hpl⟩
                rw [hpl]; exact List.getLast_mem hne
              have hfp : leQ pol f.2 p.2 :=
                (List.pairwise_cons.1 (sortedCL_iff_pairwise.1 hs)).1 p hpmem
              rw [h1]; exact hfp
          | inr h2 => exact ih hs' p hp' e h2

theorem sorted_leQ_listBound {pol : Pol} {k : Nat} {l : CL} {w : ℚ}
    (hs : sortedCL pol l) (h : listBound k l = some w) : ∀ e ∈ l, leQ pol e.2 w := by
  rcases (listBound_some h).2 with ⟨p, hp, hw⟩
  intro e he
  rw [← hw]
  exact sorted_leQ_getLast hs p hp e he

theorem insertNeighbor_noop_of_listBound {pol : Pol} {k : Nat} {l : CL} {w : ℚ} {d : ℚ}
    (hs : sortedCL pol l) (hlen : l.length ≤ k) (hb : listBound k l = some w)
    (hd : pol.isBetter d w = false) (i : Nat) : insertNeighbor pol k l i d = l := by
  have hfull : l.length = k := le_antisymm hlen (listBound_some hb).1
  refine insertNeighbor_noop hfull (fun e he => ?_) i
  have hle : leQ pol e.2 w := sorted_leQ_listBound hs hb e he
  by_contra hcon
  rw [Bool.not_eq_false] at hcon
  rw [isBetter_of_isBetter_leQ hcon hle] at hd
  simp at hd

theorem insertPos_lt_of_better {pol : Pol} {d : ℚ} : ∀ {l : CL} {p : Nat × ℚ},
    sortedCL pol l → l.getLast? = some p → pol.isBetter d p.2 = true →
    insertPos pol d l < l.length := by
  intro l
  induction l with
  | nil => intro p _ hp; simp at hp
  | cons f rest ih =>
      intro p hs hp hd
      by_cases h : pol.isBetter d f.2 = true
      · simp [insertPos, h]
      · simp only [Bool.not_eq_true] at h
        cases rest with
        | nil =>
            simp at hp
            rw [← hp] at hd
            rw [h] at hd; simp at hd
        | cons g rest' =>
            have hp' : (g :: rest').getLast? = some p := by
              rw [← List.getLast?_cons_cons]; exact hp
            have hlt := ih ((List.chain'_cons'.1 hs).2) hp' hd
            have hstep : insertPos pol d (f :: g :: rest') =
                insertPos pol d (g :: rest') + 1 := by
              show (if pol.isBetter d f.2 then 0 else insertPos pol d (g :: rest') + 1) =
                insertPos pol d (g :: rest') + 1
              rw [h]; simp
            rw [hstep, List.length_cons]
            omega

theorem mem_insertNeighbor_leQ {pol : Pol} {k : Nat} {l : CL} {w : ℚ} {i : Nat} {d : ℚ}
    (hs : sortedCL pol l) (hlen : l.length ≤ k) (hb : listBound k l = some w) :
    ∀ e ∈ insertNeighbor pol k l i d, leQ pol e.2 w := by
  intro e he
  by_cases hd : pol.isBetter d w = true
  · cases mem_insertNeighbor he with
    | inl h1 => rw [h1]; exact leQ_of_isBetter hd
    | inr h2 => exact sorted_leQ_listBound hs hb e h2
  · simp only [Bool.not_eq_true] at hd
    rw [insertNeighbor_noop_of_listBound hs hlen hb hd] at he
    exact sorted_leQ_listBound hs hb e he

/-- Comparison of a node's scratch bound against a list's worst retained
distance: `coversB pol b w` holds when `b` is at least as bad as `w`, so a
subtree pruned against `b` cannot contain anything better than `w`. -/
def coversB (pol : Pol) : Option ℚ → Option ℚ → Bool
  | none, _ => true
  | some _, none => false
  | some b, some w => !(pol.isBetter b w)

theorem coversB_none (pol : Pol) (w : Option ℚ) : coversB pol none w = true := rfl

theorem coversB_some {pol : Pol} {b : ℚ} {w : Option ℚ}
    (h : coversB pol (some b) w = true) :
    ∃ x, w = some x ∧ pol.isBetter b x = false := by
  cases w with
  | none => simp [coversB] at h
  | some x => refine ⟨x, rfl, ?_⟩; simpa [coversB] using h

theorem coversB_insertNeighbor {pol : Pol} {k : Nat} {l : CL} {b : Option ℚ}
    (hs : sortedCL pol l) (hlen : l.length ≤ k)
    (hc : coversB pol b (listBound k l) = true) (i : Nat) (d : ℚ) :
    coversB pol b (listBound k (insertNeighbor pol k l i d)) = true := by
  cases b with
  | none => exact coversB_none pol _
  | some x =>
      rcases coversB_some hc with ⟨w, hw, hbw⟩
      have h1 := listBound_some hw
      have hfull : l.length = k := le_antisymm hlen h1.1
      rcases h1.2 with ⟨p, hp, hpw⟩
      have hne : l ≠ [] := by intro h; rw [h] at hp; simp at hp
      have hk : 0 < k := by
        rw [← hfull]; exact List.length_pos.2 hne
      have hlnew : (insertNeighbor pol k l i d).length = k := by
        rw [length_insertNeighbor]; omega
      rcases listBound_some_of_full hlnew hk with ⟨w', hw'⟩
      rcases (listBound_some hw').2 with ⟨p', hp', hpw'⟩
      have hp'mem : p' ∈ insertNeighbor pol k l i d := by
        rcases List.mem_getLast?_eq_getLast hp' with ⟨hne', heq⟩
        rw [heq]; exact List.getLast_mem hne'
      have hle : leQ pol p'.2 w := mem_insertNeighbor_leQ hs hlen hw p' hp'mem
      rw [hw']
      simp only [coversB, Bool.not_eq_true']
      by_contra hcon
      rw [Bool.not_eq_false] at hcon
      have : pol.isBetter x w = true := isBetter_of_isBetter_leQ hcon (hpw' ▸ hle)
      rw [this] at hbw; simp at hbw

theorem insertNeighbor_eq_of_lt_full {pol : Pol} {k : Nat} {l : CL} {i : Nat} {d : ℚ}
    (hlen : l.length = k) (hp : insertPos pol d l < k) :
    insertNeighbor pol k l i d =
      l.take (insertPos pol d l) ++
        (i, d) :: (l.drop (insertPos pol d l)).take (k - insertPos pol d l - 1) := by
  set p := insertPos pol d l with hpdef
  have hple : p ≤ l.length := insertPos_le_length pol d l
  unfold insertNeighbor
  rw [insertSorted_eq_take_drop, ← hpdef, List.take_append_eq_append_take]
  have hlt : (l.take p).length = p := by
    rw [List.length_take]; omega
  rw [List.take_of_length_le (by omega : (l.take p).length ≤ k), hlt]
  have h2 : k - p = (k - p - 1) + 1 := by omega
  rw [h2, List.take_succ_cons]
  have h3 : k - p - 1 + 1 - 1 = k - p - 1 := by omega
  rw [h3]

theorem dropLast_subset_insertNeighbor {pol : Pol} {k : Nat} {l : CL} {i : Nat} {d : ℚ}
    (hlen : l.length = k) (hp : insertPos pol d l < k) :
    ∀ e ∈ l.dropLast, e ∈ insertNeighbor pol k l i d := by
  intro e he
  set p := insertPos pol d l with hpdef
  rw [insertNeighbor_eq_of_lt_full hlen hp, ← hpdef]
  rw [List.dropLast_eq_take, hlen] at he
  have hsplit : l.take (k - 1) = l.take p ++ (l.drop p).take (k - 1 - p) := by
    have h1 : k - 1 = p + (k - 1 - p) := by omega
    rw [h1, List.take_add]
    have h2 : p + (k - 1 - p) - p = k - 1 - p := by omega
    rw [h2]
  rw [hsplit] at he
  rcases List.mem_append.1 he with h1 | h2
  · exact List.mem_append_left _ h1
  · refine List.mem_append_right _ (List.mem_cons_of_mem _ ?_)
    have : k - 1 - p = k - p - 1 := by omega
    rw [← this]; exact h2

theorem self_mem_insertNeighbor_full {pol : Pol} {k : Nat} {l : CL} {i : Nat} {d : ℚ}
    (hlen : l.length = k) (hp : insertPos pol d l < k) :
    (i, d) ∈ insertNeighbor pol k l i d := by
  rw [insertNeighbor_eq_of_lt_full hlen hp]
  exact List.mem_append_right _ (List.mem_cons_self _ _)

theorem eq_getLast_of_dropped {pol : Pol} {k : Nat} {l : CL} {i : Nat} {d : ℚ}
    {e : Nat × ℚ} (hlen : l.length = k) (hp : insertPos pol d l < k) (hne : l ≠ [])
    (he : e ∈ l) (hnot : e ∉ insertNeighbor pol k l i d) : e = l.getLast hne := by
  have hdecomp : l.dropLast ++ [l.getLast hne] = l := List.dropLast_append_getLast hne
  rw [← hdecomp] at he
  rcases List.mem_append.1 he with h1 | h2
  · exact absurd (dropLast_subset_insertNeighbor hlen hp e h1) hnot
  · exact List.mem_singleton.1 h2

/-! ### Base-case processing of reference points -/

/-- Modelled from the spec: one step of the naive scan / tree base case —
evaluate the metric against one reference point, skipping the point itself in
same-set mode, and attempt insertion into the query's candidate list
(§4.3: Naive mode and the dual-tree base case; `ComputeBaseCase`,
header line 177). -/
def procPoint (pol : Pol) (k : Nat) (sameSet : Bool) (qi : Nat) (dist : Nat → ℚ)
    (l : CL) (r : Nat) : CL :=
  if sameSet && (r == qi) then l else insertNeighbor pol k l r (dist r)

/-- Process a list of reference points in arrival order. -/
def procList (pol : Pol) (k : Nat) (sameSet : Bool) (qi : Nat) (dist : Nat → ℚ)
    (l : CL) (rs : List Nat) : CL :=
  rs.foldl (procPoint pol k sameSet qi dist) l

theorem procList_nil (pol : Pol) (k : Nat) (sameSet : Bool) (qi : Nat)
    (dist : Nat → ℚ) (l : CL) : procList pol k sameSet qi dist l [] = l := rfl

theorem procList_cons (pol : Pol) (k : Nat) (sameSet : Bool) (qi : Nat)
    (dist : Nat → ℚ) (l : CL) (r : Nat) (rs : List Nat) :
    procList pol k sameSet qi dist l (r :: rs) =
      procList pol k sameSet qi dist (procPoint pol k sameSet qi dist l r) rs := rfl

theorem procList_append (pol : Pol) (k : Nat) (sameSet : Bool) (qi : Nat)
    (dist : Nat → ℚ) (l : CL) (rs₁ rs₂ : List Nat) :
    procList pol k sameSet qi dist l (rs₁ ++ rs₂) =
      procList pol k sameSet qi dist (procList pol k sameSet qi dist l rs₁) rs₂ :=
  List.foldl_append _ _ _ _

theorem sortedCL_procPoint {pol : Pol} {k : Nat} {sameSet : Bool} {qi : Nat}
    {dist : Nat → ℚ} {l : CL} (hs : sortedCL pol l) (r : Nat) :
    sortedCL pol (procPoint pol k sameSet qi dist l r) := by
  unfold procPoint
  split
  · exact hs
  · exact sortedCL_insertNeighbor hs k r (dist r)

theorem length_procPoint_le {pol : Pol} {k : Nat} {sameSet : Bool} {qi : Nat}
    {dist : Nat → ℚ} {l : CL} (hlen : l.length ≤ k) (r : Nat) :
    (procPoint pol k sameSet qi dist l r).length ≤ k := by
  unfold procPoint
  split
  · exact hlen
  · exact length_insertNeighbor_le pol k l r (dist r)

theorem sortedCL_procList {pol : Pol} {k : Nat} {sameSet : Bool} {qi : Nat}
    {dist : Nat → ℚ} {l : CL} (hs : sortedCL pol l) (rs : List Nat) :
    sortedCL pol (procList pol k sameSet qi dist l rs) := by
  induction rs generalizing l with
  | nil => exact hs
  | cons r rs ih => exact ih (sortedCL_procPoint hs r)

theorem length_procList_le {pol : Pol} {k : Nat} {sameSet : Bool} {qi : Nat}
    {dist : Nat → ℚ} {l : CL} (hlen : l.length ≤ k) (rs : List Nat) :
    (procList pol k sameSet qi dist l rs).length ≤ k := by
  induction rs generalizing l with
  | nil => exact hlen
  | cons r rs ih => exact ih (length_procPoint_le hlen r)

theorem coversB_procPoint {pol : Pol} {k : Nat} {sameSet : Bool} {qi : Nat}
    {dist : Nat → ℚ} {l : CL} {b : Option ℚ} (hs : sortedCL pol l)
    (hlen : l.length ≤ k) (hc : coversB pol b (listBound k l) = true) (r : Nat) :
    coversB pol b (listBound k (procPoint pol k sameSet qi dist l r)) = true := by
  unfold procPoint
  split
  · exact hc
  · exact coversB_insertNeighbor hs hlen hc r (dist r)

theorem coversB_procList {pol : Pol} {k : Nat} {sameSet : Bool} {qi : Nat}
    {dist : Nat → ℚ} {l : CL} {b : Option ℚ} (hs : sortedCL pol l)
    (hlen : l.length ≤ k) (hc : coversB pol b (listBound k l) = true) (rs : List Nat) :
    coversB pol b (listBound k (procList pol k sameSet qi dist l rs)) = true := by
  induction rs generalizing l with
  | nil => exact hc
  | cons r rs ih =>
      exact ih (sortedCL_procPoint hs r) (length_procPoint_le hlen r)
        (coversB_procPoint hs hlen hc r)

theorem procList_noop {pol : Pol} {k : Nat} {sameSet : Bool} {qi : Nat}
    {dist : Nat → ℚ} {l : CL} {w : ℚ} (hs : sortedCL pol l) (hlen : l.length ≤ k)
    (hb : listBound k l = some w)
    {rs : List Nat} (h : ∀ r ∈ rs, pol.isBetter (dist r) w = false) :
    procList pol k sameSet qi dist l rs = l := by
  induction rs with
  | nil => rfl
  | cons r rs ih =>
      rw [procList_cons]
      have hpt : procPoint pol k sameSet qi dist l r = l := by
        unfold procPoint
        split
        · rfl
        · exact insertNeighbor_noop_of_listBound hs hlen hb (h r (by simp)) r
      rw [hpt]
      exact ih fun r' hr' => h r' (by simp [hr'])

theorem not_better_mem_of_not_better_bound {pol : Pol} {k : Nat} {l : CL} {w d : ℚ}
    (hs : sortedCL pol l) (hb : listBound k l = some w)
    (hd : pol.isBetter d w = false) : ∀ e ∈ l, pol.isBetter d e.2 = false := by
  intro e he
  have hle : leQ pol e.2 w := sorted_leQ_listBound hs hb e he
  by_contra hcon
  rw [Bool.not_eq_false] at hcon
  rw [isBetter_of_isBetter_leQ hcon hle] at hd
  simp at hd

theorem listBound_getLast_val {k : Nat} {l : CL} {w : ℚ}
    (h : listBound k l = some w) (hne : l ≠ []) : (l.getLast hne).2 = w := by
  rcases (listBound_some h).2 with ⟨p, hp, hpw⟩
  rw [List.getLast?_eq_getLast_of_ne_nil hne] at hp
  rw [← hpw]
  exact congrArg Prod.snd (Option.some_injective _ hp).symm ▸ rfl

/-! ### The candidate-list invariant

The invariant of a query point's candidate list after the eligible reference
points `E` have been processed: the list is sorted best-first, holds no
duplicate indices, holds genuine (index, distance) pairs drawn from `E`, has
maximal length, and every eligible point it does not retain is no better
than anything it retains (so nothing in the true k-best set was lost). -/

structure CLInv (pol : Pol) (k : Nat) (dist : Nat → ℚ) (E : List Nat) (l : CL) :
    Prop where
  sorted : sortedCL pol l
  nodup : (l.map Prod.fst).Nodup
  mem_elig : ∀ e ∈ l, e.1 ∈ E
  genuine : ∀ e ∈ l, e.2 = dist e.1
  len : l.length = min k E.length
  rejected : ∀ j ∈ E, j ∉ l.map Prod.fst →
    l.length = k ∧ ∀ e ∈ l, pol.isBetter (dist j) e.2 = false

theorem CLInv_nil (pol : Pol) (k : Nat) (dist : Nat → ℚ) :
    CLInv pol k dist [] [] := by
  refine ⟨List.chain'_nil, List.nodup_nil, ?_, ?_, ?_, ?_⟩ <;> simp

theorem CLInv_insert {pol : Pol} {k : Nat} {dist : Nat → ℚ} {E : List Nat} {l : CL}
    (h : CLInv pol k dist E l) {r : Nat} (hr : r ∉ E) :
    CLInv pol k dist (E ++ [r]) (insertNeighbor pol k l r (dist r)) := by
  have hlen_le : l.length ≤ k := by
    rw [h.len]; exact min_le_left _ _
  have hrfst : r ∉ l.map Prod.fst := by
    intro hmem
    rcases List.mem_map.1 hmem with ⟨e, hel, hef⟩
    exact hr (hef ▸ h.mem_elig e hel)
  rcases Nat.eq_zero_or_pos k with hk0 | hk
  · -- k = 0 : the list is empty before and after
    subst hk0
    have hl0 : l = [] := by
      have := h.len; simp at this
      exact this
    subst hl0
    have hnil : insertNeighbor pol 0 [] r (dist r) = [] := by
      simp [insertNeighbor]
    rw [hnil]
    refine ⟨List.chain'_nil, List.nodup_nil, by simp, by simp, by simp, ?_⟩
    intro j hj hjn
    exact ⟨rfl, by simp⟩
  · by_cases hfull : l.length < k
    · -- the list is not yet full : plain sorted insertion
      have heq : insertNeighbor pol k l r (dist r) = insertSorted pol r (dist r) l :=
        insertNeighbor_of_lt hfull r (dist r)
      have hEfull : E.length = l.length := by
        have := h.len; omega
      refine ⟨sortedCL_insertNeighbor h.sorted k r (dist r),
        nodup_fst_insertNeighbor h.nodup hrfst, ?_, ?_, ?_, ?_⟩
      · intro e he
        cases mem_insertNeighbor he with
        | inl h1 => rw [h1]; simp
        | inr h2 => exact List.mem_append_left _ (h.mem_elig e h2)
      · intro e he
        cases mem_insertNeighbor he with
        | inl h1 => rw [h1]
        | inr h2 => exact h.genuine e h2
      · rw [length_insertNeighbor, List.length_append, List.length_singleton]
        omega
      · intro j hj hjn
        exfalso
        rcases List.mem_append.1 hj with hjE | hjr
        · -- j was never rejected while the list was not full
          have hsub : j ∈ l.map Prod.fst → j ∈ (insertNeighbor pol k l r (dist r)).map Prod.fst := by
            intro hm
            rcases List.mem_map.1 hm with ⟨e, hel, hef⟩
            exact List.mem_map.2 ⟨e, by rw [heq]; exact mem_insertSorted.2 (Or.inr hel), hef⟩
          by_cases hjl : j ∈ l.map Prod.fst
          · exact hjn (hsub hjl)
          · have := (h.rejected j hjE hjl).1
            omega
        · -- j = r is present in the new list
          have hrj : j = r := List.mem_singleton.1 hjr
          apply hjn
          rw [hrj, heq]
          exact List.mem_map.2 ⟨(r, dist r), mem_insertSorted.2 (Or.inl rfl), rfl⟩
    · -- the list is full
      have hlfull : l.length = k := by omega
      rcases listBound_some_of_full hlfull hk with ⟨w, hw⟩
      have hne : l ≠ [] := by
        intro hnil; rw [hnil] at hlfull; simp at hlfull; omega
      have hEk : k ≤ E.length := by
        have := h.len; omega
      by_cases hbw : pol.isBetter (dist r) w = true
      · -- a genuine insertion : the worst entry is dropped
        have hplt : insertPos pol (dist r) l < k := by
          rcases (listBound_some hw).2 with ⟨p, hp, hpw⟩
          have := insertPos_lt_of_better h.sorted hp (by rw [hpw]; exact hbw)
          omega
        have hlnew : (insertNeighbor pol k l r (dist r)).length = k := by
          rw [length_insertNeighbor]; omega
        refine ⟨sortedCL_insertNeighbor h.sorted k r (dist r),
          nodup_fst_insertNeighbor h.nodup hrfst, ?_, ?_, ?_, ?_⟩
        · intro e he
          cases mem_insertNeighbor he with
          | inl h1 => rw [h1]; simp
          | inr h2 => exact List.mem_append_left _ (h.mem_elig e h2)
        · intro e he
          cases mem_insertNeighbor he with
          | inl h1 => rw [h1]
          | inr h2 => exact h.genuine e h2
        · rw [hlnew, List.length_append, List.length_singleton]
          omega
        · intro j hj hjn
          refine ⟨hlnew, ?_⟩
          rcases List.mem_append.1 hj with hjE | hjr
          · by_cases hjl : j ∈ l.map Prod.fst
            · -- j's entry was dropped : it was the worst entry of the full list
              rcases List.mem_map.1 hjl with ⟨ej, hejl, hejf⟩
              have hejnot : ej ∉ insertNeighbor pol k l r (dist r) := by
                intro hmem
                exact hjn (List.mem_map.2 ⟨ej, hmem, hejf⟩)
              have hejlast : ej = l.getLast hne :=
                eq_getLast_of_dropped hlfull hplt hne hejl hejnot
              have hejw : ej.2 = w := by
                rw [hejlast]; exact listBound_getLast_val hw hne
              have hdj : dist j = w := by
                rw [← hejf, ← h.genuine ej hejl, hejw]
              intro e he
              rw [hdj]
              cases mem_insertNeighbor he with
              | inl h1 => rw [h1]; exact isBetter_asymm hbw
              | inr h2 => exact sorted_leQ_listBound h.sorted hw e h2
            · -- j was rejected earlier, when the worst retained entry was
              -- no better than it is now
              have hold := (h.rejected j hjE hjl).2
              intro e he
              cases mem_insertNeighbor he with
              | inl h1 =>
                  rw [h1]
                  by_contra hcon
                  rw [Bool.not_eq_false] at hcon
                  have hjw : pol.isBetter (dist j) w = true :=
                    isBetter_trans hcon hbw
                  have hlast : l.getLast hne ∈ l := List.getLast_mem hne
                  have := hold (l.getLast hne) hlast
                  rw [listBound_getLast_val hw hne] at this
                  rw [hjw] at this; simp at this
              | inr h2 => exact hold e h2
          · -- j = r is present in the new list
            exfalso
            have hrj : j = r := List.mem_singleton.1 hjr
            apply hjn
            rw [hrj]
            exact List.mem_map.2 ⟨(r, dist r), self_mem_insertNeighbor_full hlfull hplt, rfl⟩
      · -- the new point is no better than the current worst : no-op
        simp only [Bool.not_eq_true] at hbw
        have heq : insertNeighbor pol k l r (dist r) = l :=
          insertNeighbor_noop_of_listBound h.sorted hlen_le hw hbw r
        rw [heq]
        refine ⟨h.sorted, h.nodup, ?_, h.genuine, ?_, ?_⟩
        · exact fun e he => List.mem_append_left _ (h.mem_elig e he)
        · rw [List.length_append, List.length_singleton]; omega
        · intro j hj hjn
          rcases List.mem_append.1 hj with hjE | hjr
          · exact h.rejected j hjE hjn
          · have hrj : j = r := List.mem_singleton.1 hjr
            subst hrj
            exact ⟨hlfull, not_better_mem_of_not_better_bound h.sorted hw hbw⟩

/-- The reference points eligible for a query: in same-set mode the query
point itself is excluded (a point cannot be its own neighbor). -/
def eligOf (sameSet : Bool) (qi : Nat) (rs : List Nat) : List Nat :=
  rs.filter fun r => !(sameSet && (r == qi))

theorem eligOf_false (qi : Nat) (rs : List Nat) : eligOf false qi rs = rs := by
  simp [eligOf]

theorem eligOf_nodup {rs : List Nat} (h : rs.Nodup) (sameSet : Bool) (qi : Nat) :
    (eligOf sameSet qi rs).Nodup := h.filter _

theorem eligOf_perm {rs₁ rs₂ : List Nat} (h : rs₁.Perm rs₂) (sameSet : Bool)
    (qi : Nat) : (eligOf sameSet qi rs₁).Perm (eligOf sameSet qi rs₂) := h.filter _

theorem mem_eligOf {sameSet : Bool} {qi r : Nat} {rs : List Nat} :
    r ∈ eligOf sameSet qi rs ↔ r ∈ rs ∧ ¬(sameSet = true ∧ r = qi) := by
  cases sameSet
  · simp [eligOf]
  · simp [eligOf]

theorem CLInv_procList {pol : Pol} {k : Nat} {sameSet : Bool} {qi : Nat}
    {dist : Nat → ℚ} :
    ∀ {rs E : List Nat} {l : CL}, CLInv pol k dist E l → rs.Nodup →
      (∀ r ∈ rs, r ∉ E) →
      CLInv pol k dist (E ++ eligOf sameSet qi rs)
        (procList pol k sameSet qi dist l rs) := by
  intro rs
  induction rs with
  | nil =>
      intro E l h _ _
      simpa [eligOf, procList] using h
  | cons r rs ih =>
      intro E l h hnd hnotin
      rw [procList_cons]
      by_cases hskip : (sameSet && (r == qi)) = true
      · have hpt : procPoint pol k sameSet qi dist l r = l := by
          unfold procPoint
          rw [if_pos hskip]
        have helig : eligOf sameSet qi (r :: rs) = eligOf sameSet qi rs := by
          simp only [eligOf, List.filter_cons]
          rw [hskip]
          simp
        rw [hpt, helig]
        exact ih h (List.nodup_cons.1 hnd).2 fun r' hr' => hnotin r' (by simp [hr'])
      · have hfalse : (sameSet && (r == qi)) = false := by
          simpa using hskip
        have hpt : procPoint pol k sameSet qi dist l r =
            insertNeighbor pol k l r (dist r) := by
          unfold procPoint
          rw [if_neg hskip]
        have helig : eligOf sameSet qi (r :: rs) = r :: eligOf sameSet qi rs := by
          simp only [eligOf, List.filter_cons]
          rw [hfalse]
          simp
        rw [hpt, helig]
        have hstep := CLInv_insert h (hnotin r (by simp))
        have hres := ih hstep (List.nodup_cons.1 hnd).2 (fun r' hr' => by
          intro hmem
          rcases List.mem_append.1 hmem with h1 | h2
          · exact hnotin r' (by simp [hr']) h1
          · have : r' = r := List.mem_singleton.1 h2
            exact (List.nodup_cons.1 hnd).1 (this ▸ hr'))
        rw [List.append_assoc] at hres
        simpa using hres

theorem CLInv_procList_start {pol : Pol} {k : Nat} {sameSet : Bool} {qi : Nat}
    {dist : Nat → ℚ} {rs : List Nat} (hnd : rs.Nodup) :
    CLInv pol k dist (eligOf sameSet qi rs) (procList pol k sameSet qi dist [] rs) := by
  have h := @CLInv_procList pol k sameSet qi dist rs [] [] (CLInv_nil pol k dist)
    hnd (by simp)
  simpa using h

/-! ### The canonical top-k distances (the ground truth) -/

/-- The k best eligible distances of a query, computed directly: sort all
eligible distances best-first and keep the first k.  Any exact search mode's
per-query distance column must equal this list. -/
def canonDists (pol : Pol) (k : Nat) (dist : Nat → ℚ) (E : List Nat) : List ℚ :=
  (List.insertionSort (leQ pol) (E.map dist)).take k

theorem canonDists_perm {pol : Pol} {k : Nat} {dist : Nat → ℚ} {E₁ E₂ : List Nat}
    (h : E₁.Perm E₂) : canonDists pol k dist E₁ = canonDists pol k dist E₂ := by
  unfold canonDists
  congr 1
  exact List.eq_of_perm_of_sorted
    (((List.perm_insertionSort _ _).trans (h.map dist)).trans
      (List.perm_insertionSort _ _).symm)
    (List.sorted_insertionSort _ _) (List.sorted_insertionSort _ _)

theorem sorted_head_leQ {pol : Pol} {hd : Nat × ℚ} {tl : CL}
    (hs : sortedCL pol (hd :: tl)) : ∀ e ∈ hd :: tl, leQ pol hd.2 e.2 := by
  intro e he
  cases List.mem_cons.1 he with
  | inl h1 => rw [h1]; exact leQ_refl pol _
  | inr h2 =>
      exact (List.pairwise_cons.1 (sortedCL_iff_pairwise.1 hs)).1 e h2

/-- A candidate list satisfying the invariant carries exactly the canonical
top-k distances: no exact-search answer can differ from the ground truth in
its distances (only in tie-break ordering of indices). -/
theorem CLInv_snd_eq_canon {pol : Pol} {dist : Nat → ℚ} :
    ∀ {l : CL} {k : Nat} {E : List Nat}, E.Nodup → CLInv pol k dist E l →
      l.map Prod.snd = canonDists pol k dist E := by
  intro l
  induction l with
  | nil =>
      intro k E hE h
      have hlen := h.len
      simp only [List.length_nil] at hlen
      have h0 : k = 0 ∨ E.length = 0 := by omega
      unfold canonDists
      cases h0 with
      | inl hk => rw [hk]; simp
      | inr hE0 =>
          have hEnil : E = [] := List.length_eq_zero.1 hE0
          rw [hEnil]; simp [List.insertionSort]
  | cons hd tl ih =>
      intro k E hE h
      have hhdl : hd ∈ hd :: tl := by simp
      have hmem : hd.1 ∈ E := h.mem_elig hd hhdl
      have hd2 : hd.2 = dist hd.1 := h.genuine hd hhdl
      have hlen := h.len
      simp only [List.length_cons] at hlen
      have hk1 : 1 ≤ k := by omega
      have hE1 : 1 ≤ E.length := (List.length_pos.2 (List.ne_nil_of_mem hmem))
      set s := List.insertionSort (leQ pol) (E.map dist) with hs
      have hsperm : s.Perm (E.map dist) := List.perm_insertionSort _ _
      have hssort : List.Sorted (leQ pol) s := List.sorted_insertionSort _ _
      have hsne : s ≠ [] := by
        intro h0
        have hl := hsperm.length_eq
        rw [h0] at hl; simp at hl
        omega
      obtain ⟨m, s', hcons⟩ := List.exists_cons_of_ne_nil hsne
      -- the head of the candidate list carries the best eligible distance
      have hm_mem : m ∈ E.map dist := hsperm.subset (by rw [hcons]; simp)
      have hhd_s : hd.2 ∈ s := by
        refine hsperm.mem_iff.2 ?_
        rw [hd2]
        exact List.mem_map_of_mem dist hmem
      have hm_le : leQ pol m hd.2 := by
        rw [hcons] at hhd_s hssort
        cases List.mem_cons.1 hhd_s with
        | inl h1 => rw [h1]; exact leQ_refl pol _
        | inr h2 => exact (List.pairwise_cons.1 hssort).1 _ h2
      have hle_m : leQ pol hd.2 m := by
        rcases List.mem_map.1 hm_mem with ⟨j₀, hj₀E, hj₀d⟩
        by_cases hj₀l : j₀ ∈ (hd :: tl).map Prod.fst
        · rcases List.mem_map.1 hj₀l with ⟨e, hel, hef⟩
          have he2 : e.2 = m := by rw [h.genuine e hel, hef, hj₀d]
          rw [← he2]
          exact sorted_head_leQ h.sorted e hel
        · have hrej := (h.rejected j₀ hj₀E hj₀l).2 hd hhdl
          rw [hj₀d] at hrej
          exact leQ_of_not_isBetter hrej
      have hd2m : hd.2 = m := leQ_antisymm hle_m hm_le
      -- the tail satisfies the invariant for k-1 over the remaining points
      have hnd := h.nodup
      simp only [List.map_cons, List.nodup_cons] at hnd
      have htlinv : CLInv pol (k - 1) dist (E.erase hd.1) tl := by
        refine ⟨(List.chain'_cons'.1 h.sorted).2, hnd.2, ?_, ?_, ?_, ?_⟩
        · intro e he
          have hne : e.1 ≠ hd.1 := by
            intro hEq
            exact hnd.1 (hEq ▸ List.mem_map_of_mem Prod.fst he)
          exact (List.mem_erase_of_ne hne).mpr (h.mem_elig e (by simp [he]))
        · exact fun e he => h.genuine e (by simp [he])
        · rw [List.length_erase_of_mem hmem]
          omega
        · intro j hj hjn
          have hjE : j ∈ E := List.mem_of_mem_erase hj
          have hjne : j ≠ hd.1 := (hE.mem_erase_iff.1 hj).1
          have hjnl : j ∉ (hd :: tl).map Prod.fst := by
            simp only [List.map_cons, List.mem_cons]
            rintro (h1 | h2)
            · exact hjne h1
            · exact hjn h2
          have hrej := h.rejected j hjE hjnl
          exact ⟨by have := hrej.1; simp at this; omega,
            fun e he => hrej.2 e (by simp [he])⟩
      have hih := ih (hE.erase hd.1) htlinv
      -- assemble : the sorted eligible distances start with m
      have hperm1 : (E.map dist).Perm (m :: (E.erase hd.1).map dist) := by
        have hp : E.Perm (hd.1 :: E.erase hd.1) := List.perm_cons_erase hmem
        have := hp.map dist
        simpa [← hd2, hd2m] using this
      have hs'perm : s'.Perm ((E.erase hd.1).map dist) := by
        have : (m :: s').Perm (m :: (E.erase hd.1).map dist) := by
          rw [← hcons]; exact hsperm.trans hperm1
        exact this.cons_inv
      have hs'sort : List.Sorted (leQ pol) s' := by
        rw [hcons] at hssort
        exact (List.pairwise_cons.1 hssort).2
      have hs'canon : List.insertionSort (leQ pol) ((E.erase hd.1).map dist) = s' :=
        List.eq_of_perm_of_sorted ((List.perm_insertionSort _ _).trans hs'perm.symm)
          (List.sorted_insertionSort _ _) hs'sort
      show hd.2 :: tl.map Prod.snd = canonDists pol k dist E
      rw [hih]
      unfold canonDists
      rw [← hs, hcons, hs'canon]
      have hksucc : k = (k - 1) + 1 := by omega
      rw [hksucc, List.take_succ_cons, hd2m]
      simp

/-! ### The spatial tree -/

/-- Modelled from the spec: a SpatialTree node — an index range into the
(possibly reordered) point storage, up to two child handles, and one mutable
scalar scratch field "bound" used transiently during a search (§3; the
`QueryStat` statistic of header lines 29-47).  `none` is the RankingPolicy
worst sentinel with which `QueryStat` is constructed. -/
inductive STree where
  | leaf (b : Option ℚ) (ps : List Nat)
  | node (b : Option ℚ) (left right : STree)
deriving DecidableEq, Repr

/-- The internal point indices held beneath a node. -/
def STree.pts : STree → List Nat
  | .leaf _ ps => ps
  | .node _ l r => l.pts ++ r.pts

/-- The node's scratch bound field. -/
def STree.bound : STree → Option ℚ
  | .leaf b _ => b
  | .node b _ _ => b

/-- Modelled from the spec: re-initialization of every node's scratch bound
to the RankingPolicy worst sentinel, performed at the start of every
`Search` call (§3 Lifecycles, §4.3). -/
def resetBounds : STree → STree
  | .leaf _ ps => .leaf none ps
  | .node _ l r => .node none (resetBounds l) (resetBounds r)

/-- Every scratch bound in the tree holds the worst sentinel. -/
def allWorst : STree → Bool
  | .leaf b _ => b == none
  | .node b l r => b == none && (allWorst l && allWorst r)

theorem allWorst_resetBounds (t : STree) : allWorst (resetBounds t) = true := by
  induction t with
  | leaf b ps => rfl
  | node b l r ihl ihr => simp [resetBounds, allWorst, ihl, ihr]

theorem resetBounds_resetBounds (t : STree) :
    resetBounds (resetBounds t) = resetBounds t := by
  induction t with
  | leaf _ _ => rfl
  | node _ l r ihl ihr => simp [resetBounds, ihl, ihr]

theorem pts_resetBounds (t : STree) : (resetBounds t).pts = t.pts := by
  induction t with
  | leaf _ _ => rfl
  | node _ l r ihl ihr => simp [resetBounds, STree.pts, ihl, ihr]

/-- The point sets of all subtrees (the node's own first). -/
def subPts : STree → List (List Nat)
  | .leaf _ ps => [ps]
  | .node _ l r => (l.pts ++ r.pts) :: (subPts l ++ subPts r)

theorem subPts_resetBounds (t : STree) : subPts (resetBounds t) = subPts t := by
  induction t with
  | leaf _ _ => rfl
  | node _ l r ihl ihr => simp [resetBounds, subPts, pts_resetBounds, ihl, ihr]

theorem pts_mem_subPts (t : STree) : t.pts ∈ subPts t := by
  cases t with
  | leaf b ps => simp [subPts, STree.pts]
  | node b l r => simp [subPts, STree.pts]

theorem subPts_left {b : Option ℚ} {l r : STree} :
    ∀ ps ∈ subPts l, ps ∈ subPts (STree.node b l r) := by
  intro ps h
  simp only [subPts, List.mem_cons, List.mem_append]
  exact Or.inr (Or.inl h)

theorem subPts_right {b : Option ℚ} {l r : STree} :
    ∀ ps ∈ subPts r, ps ∈ subPts (STree.node b l r) := by
  intro ps h
  simp only [subPts, List.mem_cons, List.mem_append]
  exact Or.inr (Or.inr h)

/-! ### Bound combination and coverage -/

theorem isBetter_irrefl (pol : Pol) (a : ℚ) : pol.isBetter a a = false := by
  cases pol <;> simp [Pol.isBetter]

/-- Modelled from the spec: the RankingPolicy combination of two bounds into
the one covering both — the worse of the two, since a node's bound must
cover every point beneath it (§4.3 Dual-tree); `none` is the worst
sentinel. -/
def worseOpt (pol : Pol) : Option ℚ → Option ℚ → Option ℚ
  | none, _ => none
  | some _, none => none
  | some a, some b => some (if pol.isBetter a b then b else a)

theorem coversB_refl (pol : Pol) (w : Option ℚ) : coversB pol w w = true := by
  cases w with
  | none => rfl
  | some x => simp [coversB, isBetter_irrefl]

theorem coversB_worseOpt_left {pol : Pol} {a b w : Option ℚ}
    (h : coversB pol a w = true) : coversB pol (worseOpt pol a b) w = true := by
  cases a with
  | none => cases b <;> exact coversB_none pol w
  | some x =>
      rcases coversB_some h with ⟨v, hv, hxv⟩
      subst hv
      cases b with
      | none => exact coversB_none pol _
      | some y =>
          simp only [worseOpt]
          by_cases hxy : pol.isBetter x y = true
          · rw [if_pos hxy]
            simp only [coversB, Bool.not_eq_true']
            by_contra hcon
            rw [Bool.not_eq_false] at hcon
            rw [isBetter_trans hxy hcon] at hxv  -- x better y, y better v
            simp at hxv
          · rw [if_neg hxy]
            simp [coversB, hxv]

theorem coversB_worseOpt_right {pol : Pol} {a b w : Option ℚ}
    (h : coversB pol b w = true) : coversB pol (worseOpt pol a b) w = true := by
  cases a with
  | none => exact coversB_none pol w
  | some x =>
      cases b with
      | none => exact coversB_none pol w
      | some y =>
          rcases coversB_some h with ⟨v, hv, hyv⟩
          subst hv
          simp only [worseOpt]
          by_cases hxy : pol.isBetter x y = true
          · rw [if_pos hxy]
            simp [coversB, hyv]
          · rw [if_neg hxy]
            simp only [Bool.not_eq_true] at hxy
            simp only [coversB, Bool.not_eq_true']
            by_contra hcon
            rw [Bool.not_eq_false] at hcon
            have : pol.isBetter y v = true :=
              isBetter_of_leQ_isBetter (leQ_of_not_isBetter hxy) hcon
            rw [this] at hyv; simp at hyv

/-- Modelled from the spec: after a base case, a query leaf's bound is set
to the value covering every point beneath it — the worse of its points'
current worsts ("a node's bound must cover every point beneath it",
§4.3). -/
def combineBounds (pol : Pol) (k : Nat) (L : Nat → CL) : List Nat → Option ℚ
  | [] => none
  | [q] => listBound k (L q)
  | q :: rest => worseOpt pol (listBound k (L q)) (combineBounds pol k L rest)

theorem coversB_combineBounds {pol : Pol} {k : Nat} {L : Nat → CL} :
    ∀ {qs : List Nat}, ∀ q ∈ qs,
      coversB pol (combineBounds pol k L qs) (listBound k (L q)) = true := by
  intro qs
  induction qs with
  | nil => simp
  | cons q0 rest ih =>
      intro q hq
      cases rest with
      | nil =>
          have : q = q0 := by simpa using hq
          subst this
          exact coversB_refl pol _
      | cons q1 rest' =>
          have hcomb : combineBounds pol k L (q0 :: q1 :: rest') =
              worseOpt pol (listBound k (L q0))
                (combineBounds pol k L (q1 :: rest')) := rfl
          rw [hcomb]
          cases List.mem_cons.1 hq with
          | inl h1 =>
              subst h1
              exact coversB_worseOpt_left (coversB_refl pol _)
          | inr h2 => exact coversB_worseOpt_right (ih q h2)

theorem betterOpt_false {pol : Pol} {d : ℚ} {w : Option ℚ}
    (h : betterOpt pol d w = false) : ∃ x, w = some x ∧ pol.isBetter d x = false := by
  cases w with
  | none => simp [betterOpt] at h
  | some x => exact ⟨x, rfl, by simpa [betterOpt] using h⟩

/-! ### Single-tree search -/

/-- Modelled from the spec: `ComputeSingleNeighborsRecursion` (header lines
209-215) — for one query point, recurse over the reference tree: at each
node compute a point-to-node distance bound and skip the subtree when that
bound is not better than the query's current worst retained candidate
(never pruning while the list is not yet full); at a leaf, evaluate the
metric against each point and attempt insertion; otherwise recurse into the
children, visiting the child whose bound is more promising first (§4.3
Single-tree).  `ptB` is the point-to-node bound of this query point against
the node holding the given reference points. -/
def singleRec (pol : Pol) (k : Nat) (sameSet : Bool) (qi : Nat) (dist : Nat → ℚ)
    (ptB : List Nat → ℚ) : STree → CL → CL
  | .leaf _ ps, l =>
      if betterOpt pol (ptB ps) (listBound k l) then
        procList pol k sameSet qi dist l ps
      else l
  | .node _ c₁ c₂, l =>
      if betterOpt pol (ptB (c₁.pts ++ c₂.pts)) (listBound k l) then
        if pol.isBetter (ptB c₂.pts) (ptB c₁.pts) then
          singleRec pol k sameSet qi dist ptB c₁
            (singleRec pol k sameSet qi dist ptB c₂ l)
        else
          singleRec pol k sameSet qi dist ptB c₂
            (singleRec pol k sameSet qi dist ptB c₁ l)
      else l

/-- A pruned subtree would have contributed nothing: the candidate list after
processing its points is unchanged. -/
theorem procList_noop_of_pruned {pol : Pol} {k : Nat} {sameSet : Bool} {qi : Nat}
    {dist : Nat → ℚ} {l : CL} {ps : List Nat} {bnd : ℚ}
    (hs : sortedCL pol l) (hlen : l.length ≤ k)
    (hp : betterOpt pol bnd (listBound k l) = false)
    (hc : ∀ r ∈ ps, pol.isBetter (dist r) bnd = false) :
    procList pol k sameSet qi dist l ps = l := by
  rcases betterOpt_false hp with ⟨w, hw, hbw⟩
  refine procList_noop hs hlen hw fun r hr => ?_
  have h1 : leQ pol bnd (dist r) := leQ_of_not_isBetter (hc r hr)
  have h2 : leQ pol w bnd := leQ_of_not_isBetter hbw
  exact not_isBetter_of_leQ (leQ_trans h2 h1)

/-- Single-tree recursion refines the naive scan: its result is exactly the
result of processing the subtree's reference points in some order — pruning
never changes the candidate list that exhaustive processing would build. -/
theorem singleRec_eq_procList {pol : Pol} {k : Nat} {sameSet : Bool} {qi : Nat}
    {dist : Nat → ℚ} {ptB : List Nat → ℚ} :
    ∀ {t : STree} {l : CL}, sortedCL pol l → l.length ≤ k →
      (∀ ps ∈ subPts t, ∀ r ∈ ps, pol.isBetter (dist r) (ptB ps) = false) →
      ∃ rs, rs.Perm t.pts ∧
        singleRec pol k sameSet qi dist ptB t l =
          procList pol k sameSet qi dist l rs := by
  intro t
  induction t with
  | leaf b ps =>
      intro l hs hlen hc
      have hunfold : singleRec pol k sameSet qi dist ptB (.leaf b ps) l =
          if betterOpt pol (ptB ps) (listBound k l) = true then
            procList pol k sameSet qi dist l ps
          else l := rfl
      by_cases hp : betterOpt pol (ptB ps) (listBound k l) = true
      · exact ⟨ps, List.Perm.refl _, by rw [hunfold, if_pos hp]⟩
      · refine ⟨ps, List.Perm.refl _, ?_⟩
        rw [hunfold, if_neg hp]
        symm
        simp only [Bool.not_eq_true] at hp
        exact procList_noop_of_pruned hs hlen hp
          (hc ps (pts_mem_subPts (.leaf b ps)) )
  | node b c₁ c₂ ih₁ ih₂ =>
      intro l hs hlen hc
      have hc₁ : ∀ ps ∈ subPts c₁, ∀ r ∈ ps, pol.isBetter (dist r) (ptB ps) = false :=
        fun ps hps => hc ps (subPts_left ps hps)
      have hc₂ : ∀ ps ∈ subPts c₂, ∀ r ∈ ps, pol.isBetter (dist r) (ptB ps) = false :=
        fun ps hps => hc ps (subPts_right ps hps)
      have hunfold : singleRec pol k sameSet qi dist ptB (.node b c₁ c₂) l =
          if betterOpt pol (ptB (c₁.pts ++ c₂.pts)) (listBound k l) = true then
            if pol.isBetter (ptB c₂.pts) (ptB c₁.pts) = true then
              singleRec pol k sameSet qi dist ptB c₁
                (singleRec pol k sameSet qi dist ptB c₂ l)
            else
              singleRec pol k sameSet qi dist ptB c₂
                (singleRec pol k sameSet qi dist ptB c₁ l)
          else l := rfl
      by_cases hp : betterOpt pol (ptB (c₁.pts ++ c₂.pts)) (listBound k l) = true
      · by_cases hord : pol.isBetter (ptB c₂.pts) (ptB c₁.pts) = true
        · obtain ⟨rs₂, hperm₂, heq₂⟩ := ih₂ hs hlen hc₂
          have hs' : sortedCL pol (singleRec pol k sameSet qi dist ptB c₂ l) := by
            rw [heq₂]; exact sortedCL_procList hs rs₂
          have hlen' : (singleRec pol k sameSet qi dist ptB c₂ l).length ≤ k := by
            rw [heq₂]; exact length_procList_le hlen rs₂
          obtain ⟨rs₁, hperm₁, heq₁⟩ := ih₁ hs' hlen' hc₁
          refine ⟨rs₂ ++ rs₁, ?_, ?_⟩
          · have : STree.pts (.node b c₁ c₂) = c₁.pts ++ c₂.pts := rfl
            rw [this]
            exact (hperm₂.append hperm₁).trans (List.perm_append_comm)
          · rw [hunfold, if_pos hp, if_pos hord, procList_append, ← heq₂, ← heq₁]
        · obtain ⟨rs₁, hperm₁, heq₁⟩ := ih₁ hs hlen hc₁
          have hs' : sortedCL pol (singleRec pol k sameSet qi dist ptB c₁ l) := by
            rw [heq₁]; exact sortedCL_procList hs rs₁
          have hlen' : (singleRec pol k sameSet qi dist ptB c₁ l).length ≤ k := by
            rw [heq₁]; exact length_procList_le hlen rs₁
          obtain ⟨rs₂, hperm₂, heq₂⟩ := ih₂ hs' hlen' hc₂
          refine ⟨rs₁ ++ rs₂, ?_, ?_⟩
          · have : STree.pts (.node b c₁ c₂) = c₁.pts ++ c₂.pts := rfl
            rw [this]
            exact hperm₁.append hperm₂
          · rw [hunfold, if_pos hp, if_neg hord, procList_append, ← heq₁, ← heq₂]
      · refine ⟨c₁.pts ++ c₂.pts, ?_, ?_⟩
        · exact List.Perm.refl _
        · rw [hunfold, if_neg hp]
          symm
          simp only [Bool.not_eq_true] at hp
          exact procList_noop_of_pruned hs hlen hp
            (hc (c₁.pts ++ c₂.pts) (pts_mem_subPts (.node b c₁ c₂)))

/-! ### Dual-tree search -/

/-- Modelled from the spec: `ComputeBaseCase` (header lines 177-180) — both
nodes are leaves: evaluate the true metric between every query point and
every reference point of the two leaves (excluding same-index pairs in
same-set mode) and attempt insertion for each query point (§4.3). -/
def computeBaseCase (pol : Pol) (k : Nat) (sameSet : Bool) (dist : Nat → Nat → ℚ)
    (qpts rpts : List Nat) (L : Nat → CL) : Nat → CL :=
  fun q => if q ∈ qpts then procList pol k sameSet q (dist q) (L q) rpts else L q

/-- Modelled from the spec: the reference-side descent of
`ComputeDualNeighborsRecursion` (header lines 192-196) below a fixed query
leaf: prune the whole reference subtree when the node-to-node bound is not
better than the query leaf's current aggregate bound; at a reference leaf,
run the base case and update the query leaf's bound to the worse of its
points' current worsts; otherwise recurse into the nearer reference child
first (§4.3 Dual-tree).  `nnB` gives the node-to-node bound on the point
sets of the two nodes. -/
def dualRecLeaf (pol : Pol) (k : Nat) (sameSet : Bool) (dist : Nat → Nat → ℚ)
    (nnB : List Nat → List Nat → ℚ) (qpts : List Nat) :
    STree → Option ℚ × (Nat → CL) → Option ℚ × (Nat → CL)
  | .leaf _ rpts, bl =>
      if betterOpt pol (nnB qpts rpts) bl.1 then
        (combineBounds pol k (computeBaseCase pol k sameSet dist qpts rpts bl.2) qpts,
         computeBaseCase pol k sameSet dist qpts rpts bl.2)
      else bl
  | .node _ r₁ r₂, bl =>
      if betterOpt pol (nnB qpts (r₁.pts ++ r₂.pts)) bl.1 then
        if pol.isBetter (nnB qpts r₂.pts) (nnB qpts r₁.pts) then
          dualRecLeaf pol k sameSet dist nnB qpts r₁
            (dualRecLeaf pol k sameSet dist nnB qpts r₂ bl)
        else
          dualRecLeaf pol k sameSet dist nnB qpts r₂
            (dualRecLeaf pol k sameSet dist nnB qpts r₁ bl)
      else bl

/-- Modelled from the spec: `ComputeDualNeighborsRecursion` (header lines
192-196) — joint recursion over query and reference trees, carrying the
query node's current aggregate bound: a reference subtree whose node-to-node
bound is not better than the query node's bound is pruned for every point
under the query node; after each query child's recursion returns, the query
node's aggregate bound becomes the worse of its children's bounds (§4.3
Dual-tree). -/
def dualRec (pol : Pol) (k : Nat) (sameSet : Bool) (dist : Nat → Nat → ℚ)
    (nnB : List Nat → List Nat → ℚ) :
    STree → STree → (Nat → CL) → STree × (Nat → CL)
  | .leaf b qpts, rt, L =>
      ((STree.leaf (dualRecLeaf pol k sameSet dist nnB qpts rt (b, L)).1 qpts),
       (dualRecLeaf pol k sameSet dist nnB qpts rt (b, L)).2)
  | .node b q₁ q₂, rt, L =>
      if betterOpt pol (nnB (q₁.pts ++ q₂.pts) rt.pts) b then
        (STree.node
          (worseOpt pol (dualRec pol k sameSet dist nnB q₁ rt L).1.bound
            (dualRec pol k sameSet dist nnB q₂ rt
              (dualRec pol k sameSet dist nnB q₁ rt L).2).1.bound)
          (dualRec pol k sameSet dist nnB q₁ rt L).1
          (dualRec pol k sameSet dist nnB q₂ rt
            (dualRec pol k sameSet dist nnB q₁ rt L).2).1,
         (dualRec pol k sameSet dist nnB q₂ rt
           (dualRec pol k sameSet dist nnB q₁ rt L).2).2)
      else (.node b q₁ q₂, L)

/-- Validity of the scratch bounds of a query (sub)tree: every node's bound
covers the current worst of every query point beneath it. -/
def Covers (pol : Pol) (k : Nat) (L : Nat → CL) : STree → Prop
  | .leaf b qpts => ∀ q ∈ qpts, coversB pol b (listBound k (L q)) = true
  | .node b q₁ q₂ =>
      (∀ q ∈ q₁.pts ++ q₂.pts, coversB pol b (listBound k (L q)) = true) ∧
      (Covers pol k L q₁ ∧ Covers pol k L q₂)

theorem Covers_resetBounds (pol : Pol) (k : Nat) (L : Nat → CL) (t : STree) :
    Covers pol k L (resetBounds t) := by
  induction t with
  | leaf b ps => intro q _; exact coversB_none pol _
  | node b q₁ q₂ ih₁ ih₂ =>
      exact ⟨fun q _ => coversB_none pol _, ih₁, ih₂⟩

theorem Covers_mono {pol : Pol} {k : Nat} {L L' : Nat → CL}
    (himp : ∀ q b', coversB pol b' (listBound k (L q)) = true →
      coversB pol b' (listBound k (L' q)) = true) :
    ∀ {t : STree}, Covers pol k L t → Covers pol k L' t := by
  intro t
  induction t with
  | leaf b ps =>
      intro h q hq
      exact himp q b (h q hq)
  | node b q₁ q₂ ih₁ ih₂ =>
      rintro ⟨h0, h1, h2⟩
      exact ⟨fun q hq => himp q b (h0 q hq), ih₁ h1, ih₂ h2⟩

theorem Covers_self {pol : Pol} {k : Nat} {L : Nat → CL} :
    ∀ {t : STree}, Covers pol k L t →
      ∀ q ∈ t.pts, coversB pol t.bound (listBound k (L q)) = true := by
  intro t
  cases t with
  | leaf b ps => intro h q hq; exact h q hq
  | node b q₁ q₂ => intro h q hq; exact h.1 q hq

theorem pts_eq_of_reset_eq {t₁ t₂ : STree}
    (h : resetBounds t₁ = resetBounds t₂) : t₁.pts = t₂.pts := by
  rw [← pts_resetBounds t₁, ← pts_resetBounds t₂, h]

/-- Postcondition of the reference-side dual recursion under a fixed query
leaf with point set `qpts`: the result is what exhaustive processing of the
reference points (in some order) would produce, lists of other query points
are untouched, the returned aggregate bound covers every query point of the
leaf, and per-list facts are preserved. -/
structure DLPost (pol : Pol) (k : Nat) (sameSet : Bool) (dist : Nat → Nat → ℚ)
    (qpts refPts : List Nat) (L : Nat → CL) (res : Option ℚ × (Nat → CL)) :
    Prop where
  main : ∀ q ∈ qpts, ∃ rs, rs.Perm refPts ∧
    res.2 q = procList pol k sameSet q (dist q) (L q) rs
  frame : ∀ q, q ∉ qpts → res.2 q = L q
  covers : ∀ q ∈ qpts, coversB pol res.1 (listBound k (res.2 q)) = true
  improv : ∀ q b', coversB pol b' (listBound k (L q)) = true →
    coversB pol b' (listBound k (res.2 q)) = true
  sorted : ∀ q, sortedCL pol (res.2 q)
  lenle : ∀ q, (res.2 q).length ≤ k

theorem DLPost_perm {pol : Pol} {k : Nat} {sameSet : Bool} {dist : Nat → Nat → ℚ}
    {qpts refPts refPts' : List Nat} {L : Nat → CL} {res : Option ℚ × (Nat → CL)}
    (hp : refPts.Perm refPts') (h : DLPost pol k sameSet dist qpts refPts L res) :
    DLPost pol k sameSet dist qpts refPts' L res := by
  refine ⟨?_, h.frame, h.covers, h.improv, h.sorted, h.lenle⟩
  intro q hq
  rcases h.main q hq with ⟨rs, hrs, heq⟩
  exact ⟨rs, hrs.trans hp, heq⟩

theorem DLPost_comp {pol : Pol} {k : Nat} {sameSet : Bool} {dist : Nat → Nat → ℚ}
    {qpts p₁ p₂ : List Nat} {L : Nat → CL} {res₁ res₂ : Option ℚ × (Nat → CL)}
    (h₁ : DLPost pol k sameSet dist qpts p₁ L res₁)
    (h₂ : DLPost pol k sameSet dist qpts p₂ res₁.2 res₂) :
    DLPost pol k sameSet dist qpts (p₁ ++ p₂) L res₂ := by
  refine ⟨?_, ?_, h₂.covers, ?_, h₂.sorted, h₂.lenle⟩
  · intro q hq
    rcases h₁.main q hq with ⟨rs₁, hrs₁, heq₁⟩
    rcases h₂.main q hq with ⟨rs₂, hrs₂, heq₂⟩
    refine ⟨rs₁ ++ rs₂, hrs₁.append hrs₂, ?_⟩
    rw [heq₂, heq₁, procList_append]
  · intro q hq
    rw [h₂.frame q hq, h₁.frame q hq]
  · intro q b' hb'
    exact h₂.improv q b' (h₁.improv q b' hb')

theorem DLPost_base {pol : Pol} {k : Nat} {sameSet : Bool} {dist : Nat → Nat → ℚ}
    {qpts rpts : List Nat} {L : Nat → CL}
    (hs : ∀ q, sortedCL pol (L q)) (hl : ∀ q, (L q).length ≤ k) :
    DLPost pol k sameSet dist qpts rpts L
      (combineBounds pol k (computeBaseCase pol k sameSet dist qpts rpts L) qpts,
       computeBaseCase pol k sameSet dist qpts rpts L) := by
  refine ⟨?_, ?_, ?_, ?_, ?_, ?_⟩
  · intro q hq
    exact ⟨rpts, List.Perm.refl _, by simp [computeBaseCase, hq]⟩
  · intro q hq
    simp [computeBaseCase, hq]
  · intro q hq
    exact coversB_combineBounds q hq
  · intro q b' hb'
    dsimp only [computeBaseCase]
    split
    · exact coversB_procList (hs q) (hl q) hb' rpts
    · exact hb'
  · intro q
    dsimp only [computeBaseCase]
    split
    · exact sortedCL_procList (hs q) rpts
    · exact hs q
  · intro q
    dsimp only [computeBaseCase]
    split
    · exact length_procList_le (hl q) rpts
    · exact hl q

theorem DLPost_prune {pol : Pol} {k : Nat} {sameSet : Bool} {dist : Nat → Nat → ℚ}
    {nnB : List Nat → List Nat → ℚ} {qpts rpts : List Nat} {b : Option ℚ}
    {L : Nat → CL}
    (hc : ∀ q ∈ qpts, ∀ r ∈ rpts, pol.isBetter (dist q r) (nnB qpts rpts) = false)
    (hs : ∀ q, sortedCL pol (L q)) (hl : ∀ q, (L q).length ≤ k)
    (hcov : ∀ q ∈ qpts, coversB pol b (listBound k (L q)) = true)
    (hp : betterOpt pol (nnB qpts rpts) b = false) :
    DLPost pol k sameSet dist qpts rpts L (b, L) := by
  have hnoop : ∀ q ∈ qpts, procList pol k sameSet q (dist q) (L q) rpts = L q := by
    intro q hq
    rcases betterOpt_false hp with ⟨x, hx, hnx⟩
    rcases coversB_some (hx ▸ hcov q hq) with ⟨w, hw, hxw⟩
    have hbo : betterOpt pol (nnB qpts rpts) (listBound k (L q)) = false := by
      rw [hw]
      simp only [betterOpt]
      by_contra hcon
      rw [Bool.not_eq_false] at hcon
      have : pol.isBetter (nnB qpts rpts) x = true :=
        isBetter_of_isBetter_leQ hcon (leQ_of_not_isBetter hxw)
      rw [this] at hnx; simp at hnx
    exact procList_noop_of_pruned (hs q) (hl q) hbo (hc q hq)
  refine ⟨?_, fun q _ => rfl, hcov, fun q b' hb' => hb', hs, hl⟩
  intro q hq
  exact ⟨rpts, List.Perm.refl _, (hnoop q hq).symm⟩

/-- The reference-side dual recursion under a query leaf satisfies its
postcondition: pruning never changes what exhaustive processing would have
produced, and the returned aggregate bound covers every query point. -/
theorem dualRecLeaf_post {pol : Pol} {k : Nat} {sameSet : Bool}
    {dist : Nat → Nat → ℚ} {nnB : List Nat → List Nat → ℚ} {qpts : List Nat} :
    ∀ {rt : STree} {b : Option ℚ} {L : Nat → CL},
      (∀ rps ∈ subPts rt, ∀ q ∈ qpts, ∀ r ∈ rps,
        pol.isBetter (dist q r) (nnB qpts rps) = false) →
      (∀ q, sortedCL pol (L q)) → (∀ q, (L q).length ≤ k) →
      (∀ q ∈ qpts, coversB pol b (listBound k (L q)) = true) →
      DLPost pol k sameSet dist qpts rt.pts L
        (dualRecLeaf pol k sameSet dist nnB qpts rt (b, L)) := by
  intro rt
  induction rt with
  | leaf rb rpts =>
      intro b L hc hs hl hcov
      have hunfold : dualRecLeaf pol k sameSet dist nnB qpts (.leaf rb rpts) (b, L) =
          if betterOpt pol (nnB qpts rpts) b = true then
            (combineBounds pol k (computeBaseCase pol k sameSet dist qpts rpts L) qpts,
             computeBaseCase pol k sameSet dist qpts rpts L)
          else (b, L) := rfl
      by_cases hp : betterOpt pol (nnB qpts rpts) b = true
      · rw [hunfold, if_pos hp]
        exact DLPost_base hs hl
      · rw [hunfold, if_neg hp]
        simp only [Bool.not_eq_true] at hp
        exact DLPost_prune
          (fun q hq r hr => hc rpts (pts_mem_subPts (.leaf rb rpts)) q hq r hr)
          hs hl hcov hp
  | node rb r₁ r₂ ih₁ ih₂ =>
      intro b L hc hs hl hcov
      have hc₁ : ∀ rps ∈ subPts r₁, ∀ q ∈ qpts, ∀ r ∈ rps,
          pol.isBetter (dist q r) (nnB qpts rps) = false :=
        fun rps hrps => hc rps (subPts_left rps hrps)
      have hc₂ : ∀ rps ∈ subPts r₂, ∀ q ∈ qpts, ∀ r ∈ rps,
          pol.isBetter (dist q r) (nnB qpts rps) = false :=
        fun rps hrps => hc rps (subPts_right rps hrps)
      have hunfold : dualRecLeaf pol k sameSet dist nnB qpts (.node rb r₁ r₂) (b, L) =
          if betterOpt pol (nnB qpts (r₁.pts ++ r₂.pts)) b = true then
            if pol.isBetter (nnB qpts r₂.pts) (nnB qpts r₁.pts) = true then
              dualRecLeaf pol k sameSet dist nnB qpts r₁
                (dualRecLeaf pol k sameSet dist nnB qpts r₂ (b, L))
            else
              dualRecLeaf pol k sameSet dist nnB qpts r₂
                (dualRecLeaf pol k sameSet dist nnB qpts r₁ (b, L))
          else (b, L) := rfl
      by_cases hp : betterOpt pol (nnB qpts (r₁.pts ++ r₂.pts)) b = true
      · by_cases hord : pol.isBetter (nnB qpts r₂.pts) (nnB qpts r₁.pts) = true
        · -- visit r₂ first, then r₁
          have h₂ := ih₂ hc₂ hs hl hcov
          set res₂ := dualRecLeaf pol k sameSet dist nnB qpts r₂ (b, L) with hres₂
          have h₁ := @ih₁ res₂.1 res₂.2 hc₁ h₂.sorted h₂.lenle h₂.covers
          rw [Prod.mk.eta] at h₁
          rw [hunfold, if_pos hp, if_pos hord]
          have hcomp := DLPost_comp h₂ h₁
          have hpp : (r₂.pts ++ r₁.pts).Perm (STree.pts (.node rb r₁ r₂)) := by
            have hnode : STree.pts (.node rb r₁ r₂) = r₁.pts ++ r₂.pts := rfl
            rw [hnode]
            exact List.perm_append_comm
          exact DLPost_perm hpp hcomp
        · have h₁ := ih₁ hc₁ hs hl hcov
          set res₁ := dualRecLeaf pol k sameSet dist nnB qpts r₁ (b, L) with hres₁
          have h₂ := @ih₂ res₁.1 res₁.2 hc₂ h₁.sorted h₁.lenle h₁.covers
          rw [Prod.mk.eta] at h₂
          rw [hunfold, if_pos hp, if_neg hord]
          exact DLPost_comp h₁ h₂
      · rw [hunfold, if_neg hp]
        simp only [Bool.not_eq_true] at hp
        exact DLPost_prune
          (fun q hq r hr =>
            hc (r₁.pts ++ r₂.pts) (pts_mem_subPts (.node rb r₁ r₂)) q hq r hr)
          hs hl hcov hp

/-- Postcondition of the dual-tree recursion: the query tree keeps its
shape (only scratch bounds change), each query point's list is what
exhaustive processing of the reference subtree's points (in some order)
would produce, other lists are untouched, and the updated bounds remain
valid for the updated lists. -/
structure DPost (pol : Pol) (k : Nat) (sameSet : Bool) (dist : Nat → Nat → ℚ)
    (qt : STree) (refPts : List Nat) (L : Nat → CL) (res : STree × (Nat → CL)) :
    Prop where
  shape : resetBounds res.1 = resetBounds qt
  main : ∀ q ∈ qt.pts, ∃ rs, rs.Perm refPts ∧
    res.2 q = procList pol k sameSet q (dist q) (L q) rs
  frame : ∀ q, q ∉ qt.pts → res.2 q = L q
  covers : Covers pol k res.2 res.1
  improv : ∀ q b', coversB pol b' (listBound k (L q)) = true →
    coversB pol b' (listBound k (res.2 q)) = true
  sorted : ∀ q, sortedCL pol (res.2 q)
  lenle : ∀ q, (res.2 q).length ≤ k

/-- The dual-tree recursion satisfies its postcondition: pruning never
changes what exhaustive processing of the reference points would have put
into any query point's candidate list. -/
theorem dualRec_post {pol : Pol} {k : Nat} {sameSet : Bool}
    {dist : Nat → Nat → ℚ} {nnB : List Nat → List Nat → ℚ} {rt : STree} :
    ∀ {qt : STree} {L : Nat → CL},
      (∀ qps ∈ subPts qt, ∀ rps ∈ subPts rt, ∀ q ∈ qps, ∀ r ∈ rps,
        pol.isBetter (dist q r) (nnB qps rps) = false) →
      (∀ q, sortedCL pol (L q)) → (∀ q, (L q).length ≤ k) →
      Covers pol k L qt → qt.pts.Nodup →
      DPost pol k sameSet dist qt rt.pts L
        (dualRec pol k sameSet dist nnB qt rt L) := by
  intro qt
  induction qt with
  | leaf b qpts =>
      intro L hc hs hl hcov hnd
      have hcl : ∀ rps ∈ subPts rt, ∀ q ∈ qpts, ∀ r ∈ rps,
          pol.isBetter (dist q r) (nnB qpts rps) = false := by
        intro rps hrps q hq r hr
        exact hc qpts (pts_mem_subPts (.leaf b qpts)) rps hrps q hq r hr
      have hpost := @dualRecLeaf_post pol k sameSet dist nnB qpts rt b L hcl hs hl hcov
      have hunfold : dualRec pol k sameSet dist nnB (.leaf b qpts) rt L =
          ((STree.leaf (dualRecLeaf pol k sameSet dist nnB qpts rt (b, L)).1 qpts),
           (dualRecLeaf pol k sameSet dist nnB qpts rt (b, L)).2) := rfl
      rw [hunfold]
      refine ⟨rfl, ?_, ?_, ?_, hpost.improv, hpost.sorted, hpost.lenle⟩
      · intro q hq
        exact hpost.main q hq
      · intro q hq
        exact hpost.frame q hq
      · intro q hq
        exact hpost.covers q hq
  | node b q₁ q₂ ih₁ ih₂ =>
      intro L hc hs hl hcov hnd
      have hc₁ : ∀ qps ∈ subPts q₁, ∀ rps ∈ subPts rt, ∀ q ∈ qps, ∀ r ∈ rps,
          pol.isBetter (dist q r) (nnB qps rps) = false :=
        fun qps hqps => hc qps (subPts_left qps hqps)
      have hc₂ : ∀ qps ∈ subPts q₂, ∀ rps ∈ subPts rt, ∀ q ∈ qps, ∀ r ∈ rps,
          pol.isBetter (dist q r) (nnB qps rps) = false :=
        fun qps hqps => hc qps (subPts_right qps hqps)
      have hndapp := List.nodup_append.1 (by simpa [STree.pts] using hnd)
      have hdisj : ∀ q ∈ q₁.pts, q ∉ q₂.pts := fun q hq hq' =>
        hndapp.2.2 hq hq'
      have hunfold : dualRec pol k sameSet dist nnB (.node b q₁ q₂) rt L =
          if betterOpt pol (nnB (q₁.pts ++ q₂.pts) rt.pts) b = true then
            (STree.node
              (worseOpt pol (dualRec pol k sameSet dist nnB q₁ rt L).1.bound
                (dualRec pol k sameSet dist nnB q₂ rt
                  (dualRec pol k sameSet dist nnB q₁ rt L).2).1.bound)
              (dualRec pol k sameSet dist nnB q₁ rt L).1
              (dualRec pol k sameSet dist nnB q₂ rt
                (dualRec pol k sameSet dist nnB q₁ rt L).2).1,
             (dualRec pol k sameSet dist nnB q₂ rt
               (dualRec pol k sameSet dist nnB q₁ rt L).2).2)
          else (.node b q₁ q₂, L) := rfl
      by_cases hp : betterOpt pol (nnB (q₁.pts ++ q₂.pts) rt.pts) b = true
      · have hpost₁ := ih₁ hc₁ hs hl hcov.2.1 hndapp.1
        set p₁ := dualRec pol k sameSet dist nnB q₁ rt L with hp₁
        have hpost₂ := ih₂ hc₂ hpost₁.sorted hpost₁.lenle
          (Covers_mono hpost₁.improv hcov.2.2) hndapp.2.1
        set p₂ := dualRec pol k sameSet dist nnB q₂ rt p₁.2 with hp₂
        rw [hunfold, if_pos hp]
        have hpts₁ : p₁.1.pts = q₁.pts := pts_eq_of_reset_eq hpost₁.shape
        have hpts₂ : p₂.1.pts = q₂.pts := pts_eq_of_reset_eq hpost₂.shape
        have hcov₁f : Covers pol k p₂.2 p₁.1 := Covers_mono hpost₂.improv hpost₁.covers
        refine ⟨?_, ?_, ?_, ?_, ?_, hpost₂.sorted, hpost₂.lenle⟩
        · show STree.node none (resetBounds p₁.1) (resetBounds p₂.1) =
            STree.node none (resetBounds q₁) (resetBounds q₂)
          rw [hpost₁.shape, hpost₂.shape]
        · intro q hq
          have hq' : q ∈ q₁.pts ++ q₂.pts := by simpa [STree.pts] using hq
          rcases List.mem_append.1 hq' with h1 | h2
          · rcases hpost₁.main q h1 with ⟨rs, hrs, heq⟩
            refine ⟨rs, hrs, ?_⟩
            rw [hpost₂.frame q (hdisj q h1), heq]
          · rcases hpost₂.main q h2 with ⟨rs, hrs, heq⟩
            refine ⟨rs, hrs, ?_⟩
            have hq1 : q ∉ q₁.pts := fun hq1 => hdisj q hq1 h2
            rw [heq, hpost₁.frame q hq1]
        · intro q hq
          have hq1 : q ∉ q₁.pts := fun h1 => hq (by simp [STree.pts, h1])
          have hq2 : q ∉ q₂.pts := fun h2 => hq (by simp [STree.pts, h2])
          rw [hpost₂.frame q hq2, hpost₁.frame q hq1]
        · refine ⟨?_, hcov₁f, hpost₂.covers⟩
          intro q hq
          rcases List.mem_append.1 (by simpa [hpts₁, hpts₂] using hq) with h1 | h2
          · exact coversB_worseOpt_left
              (Covers_self hcov₁f q (by rw [hpts₁]; exact h1))
          · exact coversB_worseOpt_right
              (Covers_self hpost₂.covers q (by rw [hpts₂]; exact h2))
        · intro q b' hb'
          exact hpost₂.improv q b' (hpost₁.improv q b' hb')
      · rw [hunfold, if_neg hp]
        simp only [Bool.not_eq_true] at hp
        have hnoop : ∀ q ∈ q₁.pts ++ q₂.pts,
            procList pol k sameSet q (dist q) (L q) rt.pts = L q := by
          intro q hq
          rcases betterOpt_false hp with ⟨x, hx, hnx⟩
          have hcq : coversB pol b (listBound k (L q)) = true := hcov.1 q hq
          rcases coversB_some (hx ▸ hcq) with ⟨w, hw, hxw⟩
          have hbo : betterOpt pol (nnB (q₁.pts ++ q₂.pts) rt.pts)
              (listBound k (L q)) = false := by
            rw [hw]
            simp only [betterOpt]
            by_contra hcon
            rw [Bool.not_eq_false] at hcon
            have : pol.isBetter (nnB (q₁.pts ++ q₂.pts) rt.pts) x = true :=
              isBetter_of_isBetter_leQ hcon (leQ_of_not_isBetter hxw)
            rw [this] at hnx; simp at hnx
          exact procList_noop_of_pruned (hs q) (hl q) hbo
            (hc (q₁.pts ++ q₂.pts) (pts_mem_subPts (.node b q₁ q₂))
              rt.pts (pts_mem_subPts rt) q hq)
        refine ⟨rfl, ?_, fun q _ => rfl, hcov, fun q b' hb' => hb', hs, hl⟩
        intro q hq
        have hq' : q ∈ q₁.pts ++ q₂.pts := by simpa [STree.pts] using hq
        exact ⟨rt.pts, List.Perm.refl _, (hnoop q hq').symm⟩

theorem dualRec_shape {pol : Pol} {k : Nat} {sameSet : Bool}
    {dist : Nat → Nat → ℚ} {nnB : List Nat → List Nat → ℚ} {rt : STree} :
    ∀ (qt : STree) (L : Nat → CL),
      resetBounds (dualRec pol k sameSet dist nnB qt rt L).1 = resetBounds qt := by
  intro qt
  induction qt with
  | leaf b qpts => intro L; rfl
  | node b q₁ q₂ ih₁ ih₂ =>
      intro L
      by_cases hp : betterOpt pol (nnB (q₁.pts ++ q₂.pts) rt.pts) b = true
      · have hunfold : dualRec pol k sameSet dist nnB (.node b q₁ q₂) rt L =
            (STree.node
              (worseOpt pol (dualRec pol k sameSet dist nnB q₁ rt L).1.bound
                (dualRec pol k sameSet dist nnB q₂ rt
                  (dualRec pol k sameSet dist nnB q₁ rt L).2).1.bound)
              (dualRec pol k sameSet dist nnB q₁ rt L).1
              (dualRec pol k sameSet dist nnB q₂ rt
                (dualRec pol k sameSet dist nnB q₁ rt L).2).1,
             (dualRec pol k sameSet dist nnB q₂ rt
               (dualRec pol k sameSet dist nnB q₁ rt L).2).2) := by
          show (if betterOpt pol (nnB (q₁.pts ++ q₂.pts) rt.pts) b = true then _
            else _) = _
          rw [if_pos hp]
        rw [hunfold]
        show STree.node none _ _ = STree.node none (resetBounds q₁) (resetBounds q₂)
        rw [ih₁, ih₂]
      · have hunfold : dualRec pol k sameSet dist nnB (.node b q₁ q₂) rt L =
            (.node b q₁ q₂, L) := by
          show (if betterOpt pol (nnB (q₁.pts ++ q₂.pts) rt.pts) b = true then _
            else _) = _
          rw [if_neg hp]
        rw [hunfold]

/-! ### The search engine -/

/-- The engine state declared in the header (lines 235-270): the datasets,
the metric instance, the mode flags, the trees, and the permutation vectors
`oldFromNewReferences` and `oldFromNewQueries`.  `sameSet` records which
constructor was used (reference-only construction uses the reference set as
the query set and must exclude same-index matches). -/
structure Engine where
  refPts : List Pt
  qryPts : List Pt
  metric : Pt → Pt → ℚ
  pol : Pol
  sameSet : Bool
  naive : Bool
  singleMode : Bool
  referenceTree : STree
  queryTree : STree
  oldFromNewReferences : List Nat
  oldFromNewQueries : List Nat

/-- Internal reference point `j` is the original point at index
`oldFromNewReferences[j]`. -/
def Engine.iRefPt (e : Engine) (j : Nat) : Pt :=
  e.refPts.getD (e.oldFromNewReferences.getD j 0) []

/-- Internal query point `j` is the original point at index
`oldFromNewQueries[j]`. -/
def Engine.iQryPt (e : Engine) (j : Nat) : Pt :=
  e.qryPts.getD (e.oldFromNewQueries.getD j 0) []

/-- The metric evaluated between internal query index `qi` and internal
reference index `r`. -/
def Engine.idist (e : Engine) (qi r : Nat) : ℚ :=
  e.metric (e.iQryPt qi) (e.iRefPt r)

/-- Modelled from the spec: the number of reference points eligible as a
neighbor of a query point — all of them, minus one in same-set mode, since
a point cannot be its own neighbor (§4.3). -/
def eligibleCount (e : Engine) : Nat :=
  e.refPts.length - (if e.sameSet then 1 else 0)

/-- Modelled from the spec: the typed failure raised synchronously at
`Search` entry (§7 ConfigurationError). -/
inductive ConfigurationError where
  | invalidK
deriving DecidableEq, Repr

/-- New-from-old index lookup into a permutation vector (the inverse
direction of the stored old-from-new mapping). -/
def newFromOld (perm : List Nat) (o : Nat) : Nat := perm.indexOf o

/-- Modelled from the spec: the mode dispatch of `Search(k)` — exactly one
of naive scan, per-query single-tree recursion, or dual-tree recursion
(`naive` overrides `singleMode`) — run on trees whose scratch bounds were
re-initialized to the worst sentinel (§4.3).  Returns the updated query
tree and the per-internal-query candidate lists. -/
def runSearchMode (e : Engine) (nnB : List Nat → List Nat → ℚ)
    (ptB : Nat → List Nat → ℚ) (k : Nat) : STree × (Nat → CL) :=
  if e.naive then
    (resetBounds e.queryTree,
     fun qi => procList e.pol k e.sameSet qi (e.idist qi) []
       (List.range e.refPts.length))
  else if e.singleMode then
    (resetBounds e.queryTree,
     fun qi => singleRec e.pol k e.sameSet qi (e.idist qi) (ptB qi)
       (resetBounds e.referenceTree) [])
  else
    dualRec e.pol k e.sameSet e.idist nnB (resetBounds e.queryTree)
      (resetBounds e.referenceTree) fun _ => []

/-- One output column: the candidate list of the query of original index
`oi`, with internal reference indices translated back to original indices
through `oldFromNewReferences` (§4.3 final step). -/
def outColumn (e : Engine) (L : Nat → CL) (oi : Nat) : List (Nat × ℚ) :=
  (L (newFromOld e.oldFromNewQueries oi)).map fun p =>
    (e.oldFromNewReferences.getD p.1 0, p.2)

/-- Modelled from the spec: `Search(k)` (header lines 159-161) — validate
`k ≥ 1` and `k ≤` the number of eligible reference points, failing with a
ConfigurationError before any computation otherwise; reset every scratch
bound to the worst sentinel; dispatch to exactly one mode; translate each
query's candidate list through the permutation map and emit the columns in
original query order (§4.3, §7).  The returned engine carries the updated
scratch bounds; every other member is untouched. -/
def Search (e : Engine) (nnB : List Nat → List Nat → ℚ)
    (ptB : Nat → List Nat → ℚ) (k : Nat) :
    Except ConfigurationError (Engine × List (List (Nat × ℚ))) :=
  if k = 0 ∨ eligibleCount e < k then .error .invalidK
  else
    .ok ({ e with referenceTree := resetBounds e.referenceTree,
                  queryTree := (runSearchMode e nnB ptB k).1 },
      (List.range e.qryPts.length).map
        (outColumn e (runSearchMode e nnB ptB k).2))

/-- The neighbor-index output matrix: k rows of original reference indices
per query column. -/
def neighborMatrix (cols : List (List (Nat × ℚ))) : List (List Nat) :=
  cols.map fun col => col.map Prod.fst

/-- The distance output matrix. -/
def distanceMatrix (cols : List (List (Nat × ℚ))) : List (List ℚ) :=
  cols.map fun col => col.map Prod.snd

/-- Well-formedness of a constructed engine: the permutation vectors are
permutations of the index ranges, the trees hold exactly the internal
indices, and the reference-only constructor uses the reference data and
permutation for the queries. -/
structure WF (e : Engine) : Prop where
  permR : e.oldFromNewReferences.Perm (List.range e.refPts.length)
  permQ : e.oldFromNewQueries.Perm (List.range e.qryPts.length)
  treeR : e.referenceTree.pts.Perm (List.range e.refPts.length)
  treeQ : e.queryTree.pts.Perm (List.range e.qryPts.length)
  same : e.sameSet = true → e.qryPts = e.refPts ∧
    e.oldFromNewQueries = e.oldFromNewReferences

/-- The contract of the external node-to-node distance bound (§4.1, §6): no
pair of points beneath the two nodes has a better distance than the bound. -/
def nnContract (e : Engine) (nnB : List Nat → List Nat → ℚ) : Bool :=
  (subPts e.queryTree).all fun qps =>
    (subPts e.referenceTree).all fun rps =>
      qps.all fun q => rps.all fun r =>
        !(e.pol.isBetter (e.idist q r) (nnB qps rps))

/-- The contract of the external point-to-node distance bound (§4.1, §6). -/
def ptContract (e : Engine) (ptB : Nat → List Nat → ℚ) : Bool :=
  (List.range e.qryPts.length).all fun qi =>
    (subPts e.referenceTree).all fun rps =>
      rps.all fun r => !(e.pol.isBetter (e.idist qi r) (ptB qi rps))

theorem nnContract_spec {e : Engine} {nnB : List Nat → List Nat → ℚ}
    (h : nnContract e nnB = true) :
    ∀ qps ∈ subPts e.queryTree, ∀ rps ∈ subPts e.referenceTree,
      ∀ q ∈ qps, ∀ r ∈ rps, e.pol.isBetter (e.idist q r) (nnB qps rps) = false := by
  simp only [nnContract, List.all_eq_true, Bool.not_eq_true'] at h
  exact h

theorem ptContract_spec {e : Engine} {ptB : Nat → List Nat → ℚ}
    (h : ptContract e ptB = true) :
    ∀ qi < e.qryPts.length, ∀ rps ∈ subPts e.referenceTree,
      ∀ r ∈ rps, e.pol.isBetter (e.idist qi r) (ptB qi rps) = false := by
  simp only [ptContract, List.all_eq_true, Bool.not_eq_true'] at h
  intro qi hqi
  exact h qi (List.mem_range.2 hqi)

/-! ### Facts shared by all three search modes -/

/-- Whatever the mode, a query's final candidate list is the result of
processing all internal reference indices in some order. -/
theorem runSearchMode_procList {e : Engine} {nnB : List Nat → List Nat → ℚ}
    {ptB : Nat → List Nat → ℚ} {k : Nat} (hwf : WF e)
    (hnn : nnContract e nnB = true) (hpt : ptContract e ptB = true)
    {qi : Nat} (hqi : qi < e.qryPts.length) :
    ∃ rs, rs.Perm (List.range e.refPts.length) ∧
      (runSearchMode e nnB ptB k).2 qi =
        procList e.pol k e.sameSet qi (e.idist qi) [] rs := by
  have hR : (resetBounds e.referenceTree).pts.Perm (List.range e.refPts.length) := by
    rw [pts_resetBounds]; exact hwf.treeR
  unfold runSearchMode
  by_cases hna : e.naive = true
  · rw [if_pos hna]
    exact ⟨List.range e.refPts.length, List.Perm.refl _, rfl⟩
  · rw [if_neg hna]
    by_cases hsi : e.singleMode = true
    · rw [if_pos hsi]
      have hcontract : ∀ ps ∈ subPts (resetBounds e.referenceTree), ∀ r ∈ ps,
          e.pol.isBetter (e.idist qi r) (ptB qi ps) = false := by
        rw [subPts_resetBounds]
        exact fun ps hps r hr => ptContract_spec hpt qi hqi ps hps r hr
      obtain ⟨rs, hrs, heq⟩ :=
        singleRec_eq_procList List.chain'_nil (by simp) hcontract
      exact ⟨rs, hrs.trans hR, heq⟩
    · rw [if_neg hsi]
      have hcontract : ∀ qps ∈ subPts (resetBounds e.queryTree),
          ∀ rps ∈ subPts (resetBounds e.referenceTree), ∀ q ∈ qps, ∀ r ∈ rps,
          e.pol.isBetter (e.idist q r) (nnB qps rps) = false := by
        rw [subPts_resetBounds, subPts_resetBounds]
        exact nnContract_spec hnn
      have hnd : (resetBounds e.queryTree).pts.Nodup := by
        rw [pts_resetBounds]
        exact hwf.treeQ.nodup_iff.2 (List.nodup_range _)
      have hpost := @dualRec_post e.pol k e.sameSet e.idist nnB
        (resetBounds e.referenceTree) (resetBounds e.queryTree) (fun _ => [])
        hcontract (fun _ => List.chain'_nil) (fun _ => by simp)
        (Covers_resetBounds e.pol k (fun _ => []) e.queryTree) hnd
      have hqmem : qi ∈ (resetBounds e.queryTree).pts := by
        rw [pts_resetBounds]
        exact hwf.treeQ.mem_iff.2 (List.mem_range.2 hqi)
      obtain ⟨rs, hrs, heq⟩ := hpost.main qi hqmem
      exact ⟨rs, hrs.trans hR, heq⟩

/-- Whatever the mode, a query's final candidate list satisfies the
candidate-list invariant over (a permutation of) the eligible points. -/
theorem runSearchMode_CLInv {e : Engine} {nnB : List Nat → List Nat → ℚ}
    {ptB : Nat → List Nat → ℚ} {k : Nat} (hwf : WF e)
    (hnn : nnContract e nnB = true) (hpt : ptContract e ptB = true)
    {qi : Nat} (hqi : qi < e.qryPts.length) :
    ∃ E, E.Perm (eligOf e.sameSet qi (List.range e.refPts.length)) ∧
      CLInv e.pol k (e.idist qi) E ((runSearchMode e nnB ptB k).2 qi) := by
  obtain ⟨rs, hrs, heq⟩ := runSearchMode_procList hwf hnn hpt hqi
  refine ⟨eligOf e.sameSet qi rs, eligOf_perm hrs _ _, ?_⟩
  rw [heq]
  exact CLInv_procList_start (hrs.nodup_iff.2 (List.nodup_range _))

/-- Whatever the mode, a query's distance column is exactly the canonical
top-k distance list over its eligible reference points. -/
theorem runSearchMode_dists {e : Engine} {nnB : List Nat → List Nat → ℚ}
    {ptB : Nat → List Nat → ℚ} {k : Nat} (hwf : WF e)
    (hnn : nnContract e nnB = true) (hpt : ptContract e ptB = true)
    {qi : Nat} (hqi : qi < e.qryPts.length) :
    ((runSearchMode e nnB ptB k).2 qi).map Prod.snd =
      canonDists e.pol k (e.idist qi)
        (eligOf e.sameSet qi (List.range e.refPts.length)) := by
  obtain ⟨E, hE, hinv⟩ := runSearchMode_CLInv hwf hnn hpt hqi
  have hnodup : E.Nodup :=
    hE.nodup_iff.2 (eligOf_nodup (List.nodup_range _) _ _)
  rw [CLInv_snd_eq_canon hnodup hinv]
  exact canonDists_perm hE

/-! ### Permutation-map lookups -/

theorem indexOf_lt_of_perm_range {perm : List Nat} {n o : Nat}
    (hperm : perm.Perm (List.range n)) (ho : o < n) :
    perm.indexOf o < perm.length :=
  List.indexOf_lt_length.2 (hperm.mem_iff.2 (List.mem_range.2 ho))

theorem getD_newFromOld {perm : List Nat} {n o : Nat}
    (hperm : perm.Perm (List.range n)) (ho : o < n) :
    perm.getD (newFromOld perm o) 0 = o := by
  have hlt := indexOf_lt_of_perm_range hperm ho
  unfold newFromOld
  rw [List.getD_eq_getElem perm 0 hlt]
  exact List.getElem_indexOf hlt

theorem getD_lt_of_perm_range {perm : List Nat} {n j : Nat}
    (hperm : perm.Perm (List.range n)) (hj : j < perm.length) :
    perm.getD j 0 < n := by
  rw [List.getD_eq_getElem perm 0 hj]
  exact List.mem_range.1 (hperm.subset (List.getElem_mem hj))

theorem getD_inj_of_nodup {perm : List Nat} (hnd : perm.Nodup) {i j : Nat}
    (hi : i < perm.length) (hj : j < perm.length)
    (h : perm.getD i 0 = perm.getD j 0) : i = j := by
  rw [List.getD_eq_getElem perm 0 hi, List.getD_eq_getElem perm 0 hj] at h
  exact (List.Nodup.getElem_inj_iff hnd).1 h

theorem newFromOld_getD {perm : List Nat} (hnd : perm.Nodup) {i : Nat}
    (hi : i < perm.length) : newFromOld perm (perm.getD i 0) = i := by
  have hmem : perm.getD i 0 ∈ perm := by
    rw [List.getD_eq_getElem perm 0 hi]
    exact List.getElem_mem hi
  have hlt : perm.indexOf (perm.getD i 0) < perm.length :=
    List.indexOf_lt_length.2 hmem
  apply getD_inj_of_nodup hnd hlt hi
  rw [List.getD_eq_getElem perm 0 hlt]
  exact List.getElem_indexOf hlt

theorem newFromOld_lt {perm : List Nat} {n o : Nat}
    (hperm : perm.Perm (List.range n)) (ho : o < n) : newFromOld perm o < n := by
  have := indexOf_lt_of_perm_range hperm ho
  unfold newFromOld
  rw [hperm.length_eq, List.length_range] at this
  exact this

/-! ### Inversion and shape facts about `Search` -/

theorem Search_ok_elim {e : Engine} {nnB : List Nat → List Nat → ℚ}
    {ptB : Nat → List Nat → ℚ} {k : Nat} {e' : Engine}
    {cols : List (List (Nat × ℚ))}
    (h : Search e nnB ptB k = .ok (e', cols)) :
    e' = { e with referenceTree := resetBounds e.referenceTree,
                  queryTree := (runSearchMode e nnB ptB k).1 } ∧
    cols = (List.range e.qryPts.length).map
      (outColumn e (runSearchMode e nnB ptB k).2) ∧
    k ≠ 0 ∧ k ≤ eligibleCount e := by
  unfold Search at h
  split at h
  · exact absurd h (by simp)
  · next hcond =>
      push_neg at hcond
      simp only [Except.ok.injEq, Prod.mk.injEq] at h
      exact ⟨h.1.symm, h.2.symm, hcond.1, hcond.2⟩

theorem Search_ok_of_valid (e : Engine) (nnB : List Nat → List Nat → ℚ)
    (ptB : Nat → List Nat → ℚ) {k : Nat} (h0 : k ≠ 0) (hk : k ≤ eligibleCount e) :
    Search e nnB ptB k = .ok
      ({ e with referenceTree := resetBounds e.referenceTree,
                queryTree := (runSearchMode e nnB ptB k).1 },
       (List.range e.qryPts.length).map
         (outColumn e (runSearchMode e nnB ptB k).2)) := by
  unfold Search
  rw [if_neg]
  push_neg
  exact ⟨h0, hk⟩

theorem runSearchMode_shape (e : Engine) (nnB : List Nat → List Nat → ℚ)
    (ptB : Nat → List Nat → ℚ) (k : Nat) :
    resetBounds (runSearchMode e nnB ptB k).1 = resetBounds e.queryTree := by
  unfold runSearchMode
  split
  · exact resetBounds_resetBounds _
  · split
    · exact resetBounds_resetBounds _
    · rw [dualRec_shape]
      exact resetBounds_resetBounds _

theorem cols_getD {nQ : Nat} {f : Nat → List (Nat × ℚ)} {oi : Nat} (h : oi < nQ) :
    ((List.range nQ).map f).getD oi [] = f oi := by
  rw [List.getD_eq_getElem _ _ (by simpa using h)]
  simp

theorem outColumn_snd (e : Engine) (L : Nat → CL) (oi : Nat) :
    (outColumn e L oi).map Prod.snd =
      (L (newFromOld e.oldFromNewQueries oi)).map Prod.snd := by
  unfold outColumn
  rw [List.map_map]
  rfl

/-- The distance matrix of any successful `Search` is the canonical top-k
distance list of every query, whatever the mode. -/
theorem Search_distanceMatrix {e : Engine} {nnB : List Nat → List Nat → ℚ}
    {ptB : Nat → List Nat → ℚ} {k : Nat} {e' : Engine}
    {cols : List (List (Nat × ℚ))} (hwf : WF e)
    (hnn : nnContract e nnB = true) (hpt : ptContract e ptB = true)
    (h : Search e nnB ptB k = .ok (e', cols)) :
    distanceMatrix cols = (List.range e.qryPts.length).map fun oi =>
      canonDists e.pol k (e.idist (newFromOld e.oldFromNewQueries oi))
        (eligOf e.sameSet (newFromOld e.oldFromNewQueries oi)
          (List.range e.refPts.length)) := by
  obtain ⟨-, hcols, -, -⟩ := Search_ok_elim h
  rw [hcols]
  unfold distanceMatrix
  rw [List.map_map]
  apply List.map_congr_left
  intro oi hoi
  have hqi : newFromOld e.oldFromNewQueries oi < e.qryPts.length :=
    newFromOld_lt hwf.permQ (List.mem_range.1 hoi)
  show (outColumn e (runSearchMode e nnB ptB k).2 oi).map Prod.snd = _
  rw [outColumn_snd]
  exact runSearchMode_dists hwf hnn hpt hqi

theorem length_eligOf_range_true {qi n : Nat} (h : qi < n) :
    (eligOf true qi (List.range n)).length = n - 1 := by
  have heq : eligOf true qi (List.range n) =
      (List.range n).filter fun r => r != qi := by
    unfold eligOf
    apply List.filter_congr
    intro x _
    simp only [Bool.true_and, bne]
  rw [heq, ← (List.nodup_range n).erase_eq_filter qi,
    List.length_erase_of_mem (List.mem_range.2 h), List.length_range]

theorem length_eligOf_range_false (qi n : Nat) :
    (eligOf false qi (List.range n)).length = n := by
  rw [eligOf_false, List.length_range]

/-! ### The brute-force ground truth (C2) -/

/-- Truncating a sorted insertion commutes with bounded insertion into the
truncation: keeping only k candidates never changes the first k entries. -/
theorem insertSorted_cons_pos {pol : Pol} {i : Nat} {d : ℚ} {e : Nat × ℚ}
    {rest : CL} (h : pol.isBetter d e.2 = true) :
    insertSorted pol i d (e :: rest) = (i, d) :: e :: rest := by
  simp [insertSorted, h]

theorem insertSorted_cons_neg {pol : Pol} {i : Nat} {d : ℚ} {e : Nat × ℚ}
    {rest : CL} (h : pol.isBetter d e.2 = false) :
    insertSorted pol i d (e :: rest) = e :: insertSorted pol i d rest := by
  simp [insertSorted, h]

theorem take_insertSorted (pol : Pol) (i : Nat) (d : ℚ) :
    ∀ (u : CL) (k : Nat),
      (insertSorted pol i d u).take k = insertNeighbor pol k (u.take k) i d := by
  intro u
  induction u with
  | nil =>
      intro k
      unfold insertNeighbor
      rw [List.take_nil]
  | cons e u' ih =>
      intro k
      cases k with
      | zero => simp [insertNeighbor]
      | succ k' =>
          by_cases h : pol.isBetter d e.2 = true
          · have h2 : insertSorted pol i d ((e :: u').take (k' + 1)) =
                (i, d) :: e :: u'.take k' := by
              rw [List.take_succ_cons, insertSorted_cons_pos h]
            rw [insertSorted_cons_pos h]
            unfold insertNeighbor
            rw [h2, List.take_succ_cons, List.take_succ_cons]
            cases k' with
            | zero => simp
            | succ m =>
                rw [List.take_succ_cons, List.take_succ_cons, List.take_take]
                have hmin : min m (m + 1) = m := by omega
                rw [hmin]
          · simp only [Bool.not_eq_true] at h
            have h2 : insertSorted pol i d ((e :: u').take (k' + 1)) =
                e :: insertSorted pol i d (u'.take k') := by
              rw [List.take_succ_cons, insertSorted_cons_neg h]
            rw [insertSorted_cons_neg h]
            unfold insertNeighbor
            rw [h2, List.take_succ_cons, List.take_succ_cons]
            have hih := ih k'
            unfold insertNeighbor at hih
            rw [hih]

theorem take_foldl_insertSorted (pol : Pol) (k : Nat) :
    ∀ (ps : List (Nat × ℚ)) (u : CL),
      (ps.foldl (fun l p => insertSorted pol p.1 p.2 l) u).take k =
        ps.foldl (fun l p => insertNeighbor pol k l p.1 p.2) (u.take k) := by
  intro ps
  induction ps with
  | nil => intro u; rfl
  | cons p ps ih =>
      intro u
      rw [List.foldl_cons, List.foldl_cons, ih, take_insertSorted]

theorem procList_eq_foldl_elig (pol : Pol) (k : Nat) (sameSet : Bool) (qi : Nat)
    (dist : Nat → ℚ) :
    ∀ (rs : List Nat) (l : CL), procList pol k sameSet qi dist l rs =
      (eligOf sameSet qi rs).foldl
        (fun l' r => insertNeighbor pol k l' r (dist r)) l := by
  intro rs
  induction rs with
  | nil => intro l; rfl
  | cons r rs ih =>
      intro l
      rw [procList_cons]
      by_cases hskip : (sameSet && (r == qi)) = true
      · have h1 : procPoint pol k sameSet qi dist l r = l := by
          unfold procPoint
          rw [if_pos hskip]
        have h2 : eligOf sameSet qi (r :: rs) = eligOf sameSet qi rs := by
          simp only [eligOf, List.filter_cons]
          rw [hskip]
          simp
        rw [h1, h2, ih]
      · have h1 : procPoint pol k sameSet qi dist l r =
            insertNeighbor pol k l r (dist r) := by
          unfold procPoint
          rw [if_neg hskip]
        have h2 : eligOf sameSet qi (r :: rs) = r :: eligOf sameSet qi rs := by
          simp only [eligOf, List.filter_cons]
          rw [show (sameSet && (r == qi)) = false by simpa using hskip]
          simp
        rw [h1, h2, ih, List.foldl_cons]

/-- Modelled from the spec: an independently computed brute-force ground
truth for one query — evaluate the metric on every eligible reference
point, sort all the (index, distance) pairs best-first, and keep the top k
(§8.1: "all-pairs distances, top-k per query"). -/
def bruteForceColumn (pol : Pol) (k : Nat) (sameSet : Bool) (qi : Nat)
    (dist : Nat → ℚ) (nRef : Nat) : CL :=
  (((eligOf sameSet qi (List.range nRef)).map fun r => (r, dist r)).foldl
    (fun l p => insertSorted pol p.1 p.2 l) []).take k

/-- A query's naive scan produces exactly the brute-force column. -/
theorem procList_eq_bruteForce (pol : Pol) (k : Nat) (sameSet : Bool) (qi : Nat)
    (dist : Nat → ℚ) (nRef : Nat) :
    procList pol k sameSet qi dist [] (List.range nRef) =
      bruteForceColumn pol k sameSet qi dist nRef := by
  rw [procList_eq_foldl_elig]
  unfold bruteForceColumn
  rw [take_foldl_insertSorted, List.foldl_map, List.take_nil]

/-! ### Constructors -/

/-- The two-set constructor (header lines 100-107): adopts both point sets,
the metric, the flags, the (pre-built) trees and the permutation maps. -/
def mkEngineQuery (refPts qryPts : List Pt) (metric : Pt → Pt → ℚ) (pol : Pol)
    (naiveFlag singleFlag : Bool) (rT qT : STree) (ofnR ofnQ : List Nat) :
    Engine :=
  ⟨refPts, qryPts, metric, pol, false, naiveFlag, singleFlag, rT, qT, ofnR, ofnQ⟩

/-- The reference-only constructor (header lines 134-139): the reference
set is also the query set, and same-index matches are excluded. -/
def mkEngineSame (refPts : List Pt) (metric : Pt → Pt → ℚ) (pol : Pol)
    (naiveFlag singleFlag : Bool) (rT : STree) (ofnR : List Nat) : Engine :=
  ⟨refPts, refPts, metric, pol, true, naiveFlag, singleFlag, rT, rT, ofnR, ofnR⟩

/-- Executable check of `sortedCL`. -/
def sortedCLb (pol : Pol) : CL → Bool
  | [] => true
  | [_] => true
  | a :: b :: rest => !pol.isBetter b.2 a.2 && sortedCLb pol (b :: rest)

theorem sortedCLb_iff {pol : Pol} : ∀ {l : CL}, sortedCL pol l ↔ sortedCLb pol l = true := by
  intro l
  induction l with
  | nil => simp [sortedCL, sortedCLb]
  | cons a rest ih =>
      cases rest with
      | nil => simp [sortedCL, sortedCLb]
      | cons b rest' =>
          unfold sortedCL at *
          rw [List.chain'_cons, sortedCLb, Bool.and_eq_true, ← ih]
          unfold leQ
          rw [Bool.not_eq_true']

instance (pol : Pol) (l : CL) : Decidable (sortedCL pol l) :=
  decidable_of_iff _ sortedCLb_iff.symm

/-! ### Witness fixture: the concrete scenario of §8.7 -/

/-- Reference = query = four planar points (spec §8.7). -/
def wPts : List Pt := [[0, 0], [1, 0], [0, 1], [5, 5]]

/-- A two-leaf tree over the four internal indices (leaf size 2). -/
def wTree : STree := .node none (.leaf none [0, 1]) (.leaf none [2, 3])

/-- Identity permutation (the fixture tree does not reorder points). -/
def wPerm : List Nat := [0, 1, 2, 3]

/-- A trivially valid node-to-node bound for a nonnegative metric: zero can
never be beaten, so it never prunes, which the contract allows. -/
def wnnB : List Nat → List Nat → ℚ := fun _ _ => 0

/-- A trivially valid point-to-node bound (see `wnnB`). -/
def wptB : Nat → List Nat → ℚ := fun _ _ => 0

/-- The fixture engine in same-set mode with selectable flags. -/
def wEngine (naiveFlag singleFlag : Bool) : Engine :=
  ⟨wPts, wPts, sqEuclid, Pol.nearest, true, naiveFlag, singleFlag,
    wTree, wTree, wPerm, wPerm⟩

/-! ### C3 -/

/-- C3: `Search(k)` raises a ConfigurationError exactly when `k = 0` or `k`
exceeds the number of eligible reference points (all reference points,
minus one in same-set mode), and otherwise succeeds with no such error.
In this model the validation is the first step of `Search`: an error means
the mode dispatch never runs and no output is produced. -/
theorem C3_search_validates_k (e : Engine) (nnB : List Nat → List Nat → ℚ)
    (ptB : Nat → List Nat → ℚ) (k : Nat) :
    (Search e nnB ptB k = .error .invalidK ↔ k = 0 ∨ eligibleCount e < k) ∧
    ((∃ res, Search e nnB ptB k = .ok res) ↔
      k ≠ 0 ∧ k ≤ eligibleCount e) := by
  unfold Search
  by_cases h : k = 0 ∨ eligibleCount e < k
  · rw [if_pos h]
    refine ⟨⟨fun _ => h, fun _ => rfl⟩, ?_⟩
    constructor
    · rintro ⟨res, hres⟩
      simp at hres
    · rintro ⟨h0, hk⟩
      rcases h with h | h
      · exact absurd h h0
      · omega
  · rw [if_neg h]
    push_neg at h
    constructor
    · constructor
      · intro hcon
        simp at hcon
      · intro hcon
        rcases hcon with hcon | hcon
        · exact absurd hcon h.1
        · omega
    · exact ⟨fun _ => h, fun _ => ⟨_, rfl⟩⟩

/-! ### C5 -/

/-- C5: an attempted insertion preserves the candidate-list invariant: at
most k entries and best-first order are maintained; when the list is full,
an insertion whose distance is not better than the current worst retained
entry leaves the list unchanged; and the insertion that does occur places
the new pair at the position implied by its rank, shifting the tail right
by one, the final truncation to k dropping the last element when the list
was full. -/
theorem C5_insert_invariant (pol : Pol) (k : Nat) (l : CL) (i : Nat) (d : ℚ)
    (hs : sortedCL pol l) (hlen : l.length ≤ k) :
    (insertNeighbor pol k l i d).length ≤ k ∧
    sortedCL pol (insertNeighbor pol k l i d) ∧
    (∀ w, listBound k l = some w → pol.isBetter d w = false →
      insertNeighbor pol k l i d = l) ∧
    insertNeighbor pol k l i d =
      (l.take (insertPos pol d l) ++ (i, d) :: l.drop (insertPos pol d l)).take k := by
  refine ⟨length_insertNeighbor_le pol k l i d, sortedCL_insertNeighbor hs k i d,
    fun w hw hd => insertNeighbor_noop_of_listBound hs hlen hw hd i, ?_⟩
  unfold insertNeighbor
  rw [insertSorted_eq_take_drop]

/-- Witness for C5 at a concrete sorted two-element list (k = 2, a tied
middle insertion). -/
theorem C5_insert_invariant_witness :
    (insertNeighbor Pol.nearest 2 [(0, 1), (1, 2)] 5 1).length ≤ 2 ∧
    sortedCL Pol.nearest (insertNeighbor Pol.nearest 2 [(0, 1), (1, 2)] 5 1) ∧
    (∀ w, listBound 2 [(0, 1), (1, 2)] = some w →
      Pol.nearest.isBetter 1 w = false →
      insertNeighbor Pol.nearest 2 [(0, 1), (1, 2)] 5 1 = [(0, 1), (1, 2)]) ∧
    insertNeighbor Pol.nearest 2 [(0, 1), (1, 2)] 5 1 =
      (([(0, 1), (1, 2)] : CL).take (insertPos Pol.nearest 1 [(0, 1), (1, 2)]) ++
        (5, (1 : ℚ)) ::
          ([(0, 1), (1, 2)] : CL).drop (insertPos Pol.nearest 1 [(0, 1), (1, 2)])).take 2 :=
  C5_insert_invariant Pol.nearest 2 [(0, 1), (1, 2)] 5 1 (by decide) (by decide)

/-! ### C9 -/

/-- C9: frame — `Search` writes only the output matrices and the transient
scratch bounds: the returned engine's datasets, metric, policy, flags and
permutation maps are exactly the input's (the header holds the datasets as
const references, lines 235-244), and its trees can differ only in scratch
bound values. -/
theorem C9_search_frame {e : Engine} {nnB : List Nat → List Nat → ℚ}
    {ptB : Nat → List Nat → ℚ} {k : Nat} {e' : Engine}
    {cols : List (List (Nat × ℚ))}
    (h : Search e nnB ptB k = .ok (e', cols)) :
    e'.refPts = e.refPts ∧ e'.qryPts = e.qryPts ∧ e'.metric = e.metric ∧
    e'.pol = e.pol ∧ e'.sameSet = e.sameSet ∧ e'.naive = e.naive ∧
    e'.singleMode = e.singleMode ∧
    e'.oldFromNewReferences = e.oldFromNewReferences ∧
    e'.oldFromNewQueries = e.oldFromNewQueries ∧
    resetBounds e'.referenceTree = resetBounds e.referenceTree ∧
    resetBounds e'.queryTree = resetBounds e.queryTree := by
  obtain ⟨he', -, -, -⟩ := Search_ok_elim h
  subst he'
  exact ⟨rfl, rfl, rfl, rfl, rfl, rfl, rfl, rfl, rfl,
    resetBounds_resetBounds _, runSearchMode_shape e nnB ptB k⟩

/-- The engine and columns returned by the fixture's naive-mode search with
k = 2 (shared by several witnesses). -/
def wSearchN : Engine × List (List (Nat × ℚ)) :=
  ({ wEngine true false with
      referenceTree := resetBounds (wEngine true false).referenceTree,
      queryTree := (runSearchMode (wEngine true false) wnnB wptB 2).1 },
   (List.range (wEngine true false).qryPts.length).map
     (outColumn (wEngine true false) (runSearchMode (wEngine true false) wnnB wptB 2).2))

theorem wSearchN_ok : Search (wEngine true false) wnnB wptB 2 = .ok wSearchN :=
  Search_ok_of_valid (wEngine true false) wnnB wptB (by decide) (by decide)

/-- Witness for C9 on the concrete fixture (naive mode, k = 2). -/
theorem C9_search_frame_witness :
    wSearchN.1.refPts = (wEngine true false).refPts ∧
    wSearchN.1.qryPts = (wEngine true false).qryPts ∧
    wSearchN.1.metric = (wEngine true false).metric ∧
    wSearchN.1.pol = (wEngine true false).pol ∧
    wSearchN.1.sameSet = (wEngine true false).sameSet ∧
    wSearchN.1.naive = (wEngine true false).naive ∧
    wSearchN.1.singleMode = (wEngine true false).singleMode ∧
    wSearchN.1.oldFromNewReferences = (wEngine true false).oldFromNewReferences ∧
    wSearchN.1.oldFromNewQueries = (wEngine true false).oldFromNewQueries ∧
    resetBounds wSearchN.1.referenceTree =
      resetBounds (wEngine true false).referenceTree ∧
    resetBounds wSearchN.1.queryTree = resetBounds (wEngine true false).queryTree :=
  C9_search_frame wSearchN_ok

/-! ### C10 -/

/-- C10: determinism — engines constructed (by either constructor) from the
same datasets, the same mode flags, the same trees and permutation maps
(i.e. the same leaf-size choice) and the same metric instance produce
identical results for the same k.  The embedding is a pure function of the
construction arguments: no hidden state or randomness exists. -/
theorem C10_search_deterministic (refPts qryPts : List Pt)
    (metric : Pt → Pt → ℚ) (pol : Pol) (naiveFlag singleFlag : Bool)
    (rT qT : STree) (ofnR ofnQ : List Nat)
    (nnB : List Nat → List Nat → ℚ) (ptB : Nat → List Nat → ℚ) (k : Nat)
    (e₁ e₂ e₃ e₄ : Engine)
    (h₁ : e₁ = mkEngineQuery refPts qryPts metric pol naiveFlag singleFlag
      rT qT ofnR ofnQ)
    (h₂ : e₂ = mkEngineQuery refPts qryPts metric pol naiveFlag singleFlag
      rT qT ofnR ofnQ)
    (h₃ : e₃ = mkEngineSame refPts metric pol naiveFlag singleFlag rT ofnR)
    (h₄ : e₄ = mkEngineSame refPts metric pol naiveFlag singleFlag rT ofnR) :
    Search e₁ nnB ptB k = Search e₂ nnB ptB k ∧
    Search e₃ nnB ptB k = Search e₄ nnB ptB k := by
  subst h₁; subst h₂; subst h₃; subst h₄
  exact ⟨rfl, rfl⟩

/-- Witness for C10 at the concrete fixture. -/
theorem C10_search_deterministic_witness :
    Search (mkEngineQuery wPts wPts sqEuclid Pol.nearest true false wTree wTree
      wPerm wPerm) wnnB wptB 2 =
    Search (mkEngineQuery wPts wPts sqEuclid Pol.nearest true false wTree wTree
      wPerm wPerm) wnnB wptB 2 ∧
    Search (mkEngineSame wPts sqEuclid Pol.nearest true false wTree wPerm)
      wnnB wptB 2 =
    Search (mkEngineSame wPts sqEuclid Pol.nearest true false wTree wPerm)
      wnnB wptB 2 :=
  C10_search_deterministic wPts wPts sqEuclid Pol.nearest true false wTree wTree
    wPerm wPerm wnnB wptB 2 _ _ _ _ rfl rfl rfl rfl

/-! ### C7 -/

/-- `Search` is insensitive to the incoming scratch-bound values: they are
overwritten by the reset before any recursion. -/
theorem Search_bounds_invariant (e : Engine) (nnB : List Nat → List Nat → ℚ)
    (ptB : Nat → List Nat → ℚ) (k : Nat) (tR tQ : STree)
    (h1 : resetBounds tR = resetBounds e.referenceTree)
    (h2 : resetBounds tQ = resetBounds e.queryTree) :
    Search { e with referenceTree := tR, queryTree := tQ } nnB ptB k =
      Search e nnB ptB k := by
  unfold Search runSearchMode eligibleCount outColumn Engine.idist
    Engine.iQryPt Engine.iRefPt
  dsimp only
  rw [h1, h2]

/-- C7: when the search recursion begins, every node's scratch bound equals
the RankingPolicy worst sentinel (`Search` re-initializes the bounds of
both trees), and bound values are mutated only within a call: the result of
`Search` is invariant under arbitrary incoming bound values, and a second
`Search` on the engine returned by a first call behaves exactly as on the
original engine — no bound value leaks across calls. -/
theorem C7_bounds_reset_no_leak (e : Engine) (nnB : List Nat → List Nat → ℚ)
    (ptB : Nat → List Nat → ℚ) (k k' : Nat) (tR tQ : STree)
    (h1 : resetBounds tR = resetBounds e.referenceTree)
    (h2 : resetBounds tQ = resetBounds e.queryTree) :
    allWorst (resetBounds e.referenceTree) = true ∧
    allWorst (resetBounds e.queryTree) = true ∧
    Search { e with referenceTree := tR, queryTree := tQ } nnB ptB k =
      Search e nnB ptB k ∧
    (∀ e' cols, Search e nnB ptB k = .ok (e', cols) →
      Search e' nnB ptB k' = Search e nnB ptB k') := by
  refine ⟨allWorst_resetBounds _, allWorst_resetBounds _,
    Search_bounds_invariant e nnB ptB k tR tQ h1 h2, ?_⟩
  intro e' cols h
  obtain ⟨he', -, -, -⟩ := Search_ok_elim h
  subst he'
  exact Search_bounds_invariant e nnB ptB k'
    (resetBounds e.referenceTree) ((runSearchMode e nnB ptB k).1)
    (resetBounds_resetBounds _) (runSearchMode_shape e nnB ptB k)

/-- Witness for C7 on the fixture, with scribbled-on incoming bounds. -/
theorem C7_bounds_reset_no_leak_witness :
    allWorst (resetBounds (wEngine false false).referenceTree) = true ∧
    allWorst (resetBounds (wEngine false false).queryTree) = true ∧
    Search { wEngine false false with
        referenceTree := STree.node (some 7) (.leaf (some 3) [0, 1]) (.leaf none [2, 3]),
        queryTree := STree.node (some 2) (.leaf none [0, 1]) (.leaf (some 5) [2, 3]) }
      wnnB wptB 2 = Search (wEngine false false) wnnB wptB 2 ∧
    (∀ e' cols, Search (wEngine false false) wnnB wptB 2 = .ok (e', cols) →
      Search e' wnnB wptB 3 = Search (wEngine false false) wnnB wptB 3) :=
  C7_bounds_reset_no_leak (wEngine false false) wnnB wptB 2 3
    (STree.node (some 7) (.leaf (some 3) [0, 1]) (.leaf none [2, 3]))
    (STree.node (some 2) (.leaf none [0, 1]) (.leaf (some 5) [2, 3]))
    (by decide) (by decide)

/-! ### C6 -/

/-- C6: the permutation map round-trips — composing the old-to-new mapping
(`newFromOld`, the index lookup) with the stored new-to-old mapping
(`oldFromNewReferences`) is the identity in both directions — and
consequently every neighbor index written to the output matrices is an
original caller-visible index (it addresses the original reference set),
independent of the internal tree reordering. -/
theorem C6_permutation_roundtrip {e : Engine} {nnB : List Nat → List Nat → ℚ}
    {ptB : Nat → List Nat → ℚ} {k : Nat} {e' : Engine}
    {cols : List (List (Nat × ℚ))} (hwf : WF e)
    (hnn : nnContract e nnB = true) (hpt : ptContract e ptB = true)
    (h : Search e nnB ptB k = .ok (e', cols)) :
    (∀ i < e.refPts.length,
      e.oldFromNewReferences.getD (newFromOld e.oldFromNewReferences i) 0 = i) ∧
    (∀ j < e.oldFromNewReferences.length,
      newFromOld e.oldFromNewReferences (e.oldFromNewReferences.getD j 0) = j) ∧
    (∀ col ∈ cols, ∀ p ∈ col, p.1 < e.refPts.length) := by
  have hndR : e.oldFromNewReferences.Nodup :=
    hwf.permR.nodup_iff.2 (List.nodup_range _)
  refine ⟨fun i hi => getD_newFromOld hwf.permR hi,
    fun j hj => newFromOld_getD hndR hj, ?_⟩
  obtain ⟨-, hcols, -, -⟩ := Search_ok_elim h
  subst hcols
  intro col hcol p hp
  rcases List.mem_map.1 hcol with ⟨oi, hoi, hcoleq⟩
  subst hcoleq
  unfold outColumn at hp
  rcases List.mem_map.1 hp with ⟨q, hq, hqeq⟩
  have hqi : newFromOld e.oldFromNewQueries oi < e.qryPts.length :=
    newFromOld_lt hwf.permQ (List.mem_range.1 hoi)
  obtain ⟨E, hE, hinv⟩ := runSearchMode_CLInv hwf hnn hpt hqi
  have hq1 : q.1 ∈ E := hinv.mem_elig q hq
  have hq1' : q.1 ∈ eligOf e.sameSet (newFromOld e.oldFromNewQueries oi)
      (List.range e.refPts.length) := hE.subset hq1
  have hq1lt : q.1 < e.refPts.length :=
    List.mem_range.1 (mem_eligOf.1 hq1').1
  rw [← hqeq]
  exact getD_lt_of_perm_range hwf.permR (by rw [hwf.permR.length_eq, List.length_range]; exact hq1lt)

/-- Witness for C6 on the fixture (dual-tree mode, k = 2). -/
def wSearchD : Engine × List (List (Nat × ℚ)) :=
  ({ wEngine false false with
      referenceTree := resetBounds (wEngine false false).referenceTree,
      queryTree := (runSearchMode (wEngine false false) wnnB wptB 2).1 },
   (List.range (wEngine false false).qryPts.length).map
     (outColumn (wEngine false false) (runSearchMode (wEngine false false) wnnB wptB 2).2))

theorem wSearchD_ok : Search (wEngine false false) wnnB wptB 2 = .ok wSearchD :=
  Search_ok_of_valid (wEngine false false) wnnB wptB (by decide) (by decide)

theorem wEngine_WF (naiveFlag singleFlag : Bool) :
    WF (wEngine naiveFlag singleFlag) := by
  refine ⟨?_, ?_, ?_, ?_, fun _ => ⟨rfl, rfl⟩⟩
  · show wPerm.Perm (List.range wPts.length)
    decide
  · show wPerm.Perm (List.range wPts.length)
    decide
  · show wTree.pts.Perm (List.range wPts.length)
    decide
  · show wTree.pts.Perm (List.range wPts.length)
    decide

theorem sqEuclid_nonneg (x y : Pt) : 0 ≤ sqEuclid x y := by
  unfold sqEuclid
  apply List.sum_nonneg
  intro a ha
  rcases List.mem_map.1 ha with ⟨p, -, hpe⟩
  rw [← hpe]
  exact mul_self_nonneg _

/-- The all-zero bounds satisfy the node-to-node contract on the fixture:
squared Euclidean distances are nonnegative, so nothing beats zero. -/
theorem wContract_nn (naiveFlag singleFlag : Bool) :
    nnContract (wEngine naiveFlag singleFlag) wnnB = true := by
  unfold nnContract
  rw [List.all_eq_true]
  intro qps _
  rw [List.all_eq_true]
  intro rps _
  rw [List.all_eq_true]
  intro q _
  rw [List.all_eq_true]
  intro r _
  rw [Bool.not_eq_true']
  show decide ((wEngine naiveFlag singleFlag).idist q r < 0) = false
  apply decide_eq_false
  push_neg
  exact sqEuclid_nonneg _ _

/-- The all-zero bounds satisfy the point-to-node contract on the fixture. -/
theorem wContract_pt (naiveFlag singleFlag : Bool) :
    ptContract (wEngine naiveFlag singleFlag) wptB = true := by
  unfold ptContract
  rw [List.all_eq_true]
  intro qi _
  rw [List.all_eq_true]
  intro rps _
  rw [List.all_eq_true]
  intro r _
  rw [Bool.not_eq_true']
  show decide ((wEngine naiveFlag singleFlag).idist qi r < 0) = false
  apply decide_eq_false
  push_neg
  exact sqEuclid_nonneg _ _

theorem C6_permutation_roundtrip_witness :
    (∀ i < (wEngine false false).refPts.length,
      (wEngine false false).oldFromNewReferences.getD
        (newFromOld (wEngine false false).oldFromNewReferences i) 0 = i) ∧
    (∀ j < (wEngine false false).oldFromNewReferences.length,
      newFromOld (wEngine false false).oldFromNewReferences
        ((wEngine false false).oldFromNewReferences.getD j 0) = j) ∧
    (∀ col ∈ wSearchD.2, ∀ p ∈ col, p.1 < (wEngine false false).refPts.length) :=
  C6_permutation_roundtrip (wEngine_WF false false) (wContract_nn false false)
    (wContract_pt false false) wSearchD_ok

/-! ### C8 -/

theorem sortedCL_map_fst {pol : Pol} {l : CL} (f : Nat → Nat)
    (hs : sortedCL pol l) :
    sortedCL pol (l.map fun p => (f p.1, p.2)) := by
  rw [sortedCL_iff_pairwise] at hs ⊢
  rw [List.pairwise_map]
  exact hs.imp fun h => h

/-- C8: every successful `Search(k)` produces one output column per query
point, each holding exactly k rows ordered best-first per the policy, each
entry pairing a permutation-translated original reference index with its
true metric distance from the query point. -/
theorem C8_output_shape {e : Engine} {nnB : List Nat → List Nat → ℚ}
    {ptB : Nat → List Nat → ℚ} {k : Nat} {e' : Engine}
    {cols : List (List (Nat × ℚ))} (hwf : WF e)
    (hnn : nnContract e nnB = true) (hpt : ptContract e ptB = true)
    (h : Search e nnB ptB k = .ok (e', cols)) :
    cols.length = e.qryPts.length ∧
    ∀ oi < e.qryPts.length,
      (cols.getD oi []).length = k ∧
      sortedCL e.pol (cols.getD oi []) ∧
      ∀ p ∈ cols.getD oi [], p.1 < e.refPts.length ∧
        p.2 = e.metric (e.qryPts.getD oi []) (e.refPts.getD p.1 []) := by
  obtain ⟨-, hcols, -, hk⟩ := Search_ok_elim h
  have hk0 : k ≠ 0 := (Search_ok_elim h).2.2.1
  subst hcols
  refine ⟨by simp, ?_⟩
  intro oi hoi
  rw [cols_getD hoi]
  have hqi : newFromOld e.oldFromNewQueries oi < e.qryPts.length :=
    newFromOld_lt hwf.permQ hoi
  obtain ⟨E, hE, hinv⟩ := runSearchMode_CLInv hwf hnn hpt hqi
  have hoQ : e.oldFromNewQueries.getD (newFromOld e.oldFromNewQueries oi) 0 = oi :=
    getD_newFromOld hwf.permQ hoi
  refine ⟨?_, ?_, ?_⟩
  · -- exactly k rows
    unfold outColumn
    rw [List.length_map, hinv.len, hE.length_eq]
    cases hss : e.sameSet with
    | true =>
        have hsame := hwf.same hss
        have hlen' : e.qryPts.length = e.refPts.length := by rw [hsame.1]
        rw [length_eligOf_range_true (by omega)]
        unfold eligibleCount at hk
        rw [hss] at hk
        simp at hk
        omega
    | false =>
        rw [length_eligOf_range_false]
        unfold eligibleCount at hk
        rw [hss] at hk
        simp at hk
        omega
  · -- best-first order
    unfold outColumn
    exact sortedCL_map_fst (fun x => e.oldFromNewReferences.getD x 0) hinv.sorted
  · -- original indices, genuine distances
    intro p hp
    unfold outColumn at hp
    rcases List.mem_map.1 hp with ⟨q, hq, hqeq⟩
    have hq1 : q.1 ∈ eligOf e.sameSet (newFromOld e.oldFromNewQueries oi)
        (List.range e.refPts.length) := hE.subset (hinv.mem_elig q hq)
    have hq1lt : q.1 < e.refPts.length := List.mem_range.1 (mem_eligOf.1 hq1).1
    constructor
    · rw [← hqeq]
      exact getD_lt_of_perm_range hwf.permR
        (by rw [hwf.permR.length_eq, List.length_range]; exact hq1lt)
    · rw [← hqeq]
      show q.2 = _
      rw [hinv.genuine q hq]
      unfold Engine.idist Engine.iQryPt Engine.iRefPt
      rw [hoQ]

/-- Witness for C8 on the fixture (dual-tree mode, k = 2). -/
theorem C8_output_shape_witness :
    wSearchD.2.length = (wEngine false false).qryPts.length ∧
    ∀ oi < (wEngine false false).qryPts.length,
      (wSearchD.2.getD oi []).length = 2 ∧
      sortedCL (wEngine false false).pol (wSearchD.2.getD oi []) ∧
      ∀ p ∈ wSearchD.2.getD oi [], p.1 < (wEngine false false).refPts.length ∧
        p.2 = (wEngine false false).metric
          ((wEngine false false).qryPts.getD oi [])
          ((wEngine false false).refPts.getD p.1 []) :=
  C8_output_shape (wEngine_WF false false) (wContract_nn false false)
    (wContract_pt false false) wSearchD_ok

/-! ### C2 -/

/-- C2: for every reference set, query set, valid k and either
RankingPolicy instantiation, naive-mode `Search` returns for each query
point exactly the k best reference points: each output column equals the
brute-force ground truth (metric evaluated on every eligible pair, pairs
sorted best-first, top k kept) translated through the permutation map, and
its distance list is the canonical sorted top-k distance list. -/
theorem C2_naive_eq_bruteforce {e : Engine} {nnB : List Nat → List Nat → ℚ}
    {ptB : Nat → List Nat → ℚ} {k : Nat} {e' : Engine}
    {cols : List (List (Nat × ℚ))} (hnaive : e.naive = true)
    (h : Search e nnB ptB k = .ok (e', cols)) :
    cols.length = e.qryPts.length ∧
    ∀ oi < e.qryPts.length,
      cols.getD oi [] =
        (bruteForceColumn e.pol k e.sameSet (newFromOld e.oldFromNewQueries oi)
            (e.idist (newFromOld e.oldFromNewQueries oi)) e.refPts.length).map
          (fun p => (e.oldFromNewReferences.getD p.1 0, p.2)) ∧
      (cols.getD oi []).map Prod.snd =
        canonDists e.pol k (e.idist (newFromOld e.oldFromNewQueries oi))
          (eligOf e.sameSet (newFromOld e.oldFromNewQueries oi)
            (List.range e.refPts.length)) := by
  obtain ⟨-, hcols, -, -⟩ := Search_ok_elim h
  subst hcols
  have hmode : (runSearchMode e nnB ptB k).2 = fun qi =>
      procList e.pol k e.sameSet qi (e.idist qi) []
        (List.range e.refPts.length) := by
    unfold runSearchMode
    rw [if_pos hnaive]
  refine ⟨by simp, ?_⟩
  intro oi hoi
  rw [cols_getD hoi]
  constructor
  · unfold outColumn
    rw [hmode, ← procList_eq_bruteForce]
  · rw [outColumn_snd, hmode]
    have hinv := @CLInv_procList_start e.pol k e.sameSet
      (newFromOld e.oldFromNewQueries oi)
      (e.idist (newFromOld e.oldFromNewQueries oi))
      (List.range e.refPts.length) (List.nodup_range _)
    exact CLInv_snd_eq_canon (eligOf_nodup (List.nodup_range _) _ _) hinv

/-- Witness for C2 on the fixture (naive mode, k = 2). -/
theorem C2_naive_eq_bruteforce_witness :
    wSearchN.2.length = (wEngine true false).qryPts.length ∧
    ∀ oi < (wEngine true false).qryPts.length,
      wSearchN.2.getD oi [] =
        (bruteForceColumn (wEngine true false).pol 2 (wEngine true false).sameSet
            (newFromOld (wEngine true false).oldFromNewQueries oi)
            ((wEngine true false).idist
              (newFromOld (wEngine true false).oldFromNewQueries oi))
            (wEngine true false).refPts.length).map
          (fun p => ((wEngine true false).oldFromNewReferences.getD p.1 0, p.2)) ∧
      (wSearchN.2.getD oi []).map Prod.snd =
        canonDists (wEngine true false).pol 2
          ((wEngine true false).idist
            (newFromOld (wEngine true false).oldFromNewQueries oi))
          (eligOf (wEngine true false).sameSet
            (newFromOld (wEngine true false).oldFromNewQueries oi)
            (List.range (wEngine true false).refPts.length)) :=
  C2_naive_eq_bruteforce rfl wSearchN_ok

/-! ### C1 -/

theorem outColumn_getLast_snd (e : Engine) (L : Nat → CL) (oi : Nat) :
    ((outColumn e L oi).getLast?).map Prod.snd =
      ((L (newFromOld e.oldFromNewQueries oi)).map Prod.snd).getLast? := by
  unfold outColumn
  rw [List.getLast?_map, List.getLast?_map, Option.map_map]
  rfl

/-- In any mode, a reference point strictly better than a query's current
k-th best output distance is retained in the query's output column:
pruning loses no true answer. -/
theorem mode_no_loss {e : Engine} {nnB : List Nat → List Nat → ℚ}
    {ptB : Nat → List Nat → ℚ} {k : Nat} (hwf : WF e)
    (hnn : nnContract e nnB = true) (hpt : ptContract e ptB = true)
    {oi r : Nat} (hoi : oi < e.qryPts.length) (hr : r < e.refPts.length)
    (hne : e.sameSet = true → r ≠ oi) {w : ℚ}
    (hw : (((runSearchMode e nnB ptB k).2
      (newFromOld e.oldFromNewQueries oi)).map Prod.snd).getLast? = some w)
    (hbetter : e.pol.isBetter
      (e.metric (e.qryPts.getD oi []) (e.refPts.getD r [])) w = true) :
    r ∈ (outColumn e (runSearchMode e nnB ptB k).2 oi).map Prod.fst := by
  have hqi : newFromOld e.oldFromNewQueries oi < e.qryPts.length :=
    newFromOld_lt hwf.permQ hoi
  obtain ⟨E, hE, hinv⟩ := runSearchMode_CLInv hwf hnn hpt hqi
  have hrilt : newFromOld e.oldFromNewReferences r < e.refPts.length :=
    newFromOld_lt hwf.permR hr
  have hriD : e.oldFromNewReferences.getD (newFromOld e.oldFromNewReferences r) 0
      = r := getD_newFromOld hwf.permR hr
  have hriE : newFromOld e.oldFromNewReferences r ∈ E := by
    rw [hE.mem_iff, mem_eligOf]
    refine ⟨List.mem_range.2 hrilt, ?_⟩
    rintro ⟨hss, hriqi⟩
    have hsame := hwf.same hss
    have hoi' : oi < e.refPts.length := by
      rw [← hsame.1]
      exact hoi
    apply hne hss
    have h3 : newFromOld e.oldFromNewReferences r =
        newFromOld e.oldFromNewReferences oi := by
      rw [hriqi, hsame.2]
    rw [← hriD, h3, getD_newFromOld hwf.permR hoi']
  have hdist : e.idist (newFromOld e.oldFromNewQueries oi)
      (newFromOld e.oldFromNewReferences r) =
      e.metric (e.qryPts.getD oi []) (e.refPts.getD r []) := by
    unfold Engine.idist Engine.iQryPt Engine.iRefPt
    rw [getD_newFromOld hwf.permQ hoi, hriD]
  rw [List.getLast?_map] at hw
  rcases Option.map_eq_some'.1 hw with ⟨p, hp, hpw⟩
  have hpmem : p ∈ (runSearchMode e nnB ptB k).2
      (newFromOld e.oldFromNewQueries oi) := by
    rcases List.mem_getLast?_eq_getLast hp with ⟨hneq, hpl⟩
    rw [hpl]
    exact List.getLast_mem hneq
  have hrimem : newFromOld e.oldFromNewReferences r ∈
      ((runSearchMode e nnB ptB k).2
        (newFromOld e.oldFromNewQueries oi)).map Prod.fst := by
    by_contra hcon
    have hrej := (hinv.rejected _ hriE hcon).2 p hpmem
    rw [hdist, hpw] at hrej
    rw [hrej] at hbetter
    simp at hbetter
  rcases List.mem_map.1 hrimem with ⟨q, hq, hqf⟩
  unfold outColumn
  rw [List.map_map]
  refine List.mem_map.2 ⟨q, hq, ?_⟩
  show e.oldFromNewReferences.getD q.1 0 = r
  rw [hqf]
  exact hriD

/-- C1: for every point set, every k satisfying the `Search` preconditions
and every well-formed pair of trees with valid bounds (the leaf-size
parameter only changes which trees are quantified over), dual-tree and
single-tree `Search` produce output identical to naive `Search` up to
tie-break ordering among candidates at equal distances: all three modes
succeed, their distance matrices are equal, and pruning never removes a
reference point belonging to the true k-best set of any query point —
every reference point strictly better than a query's k-th best output
distance appears in that query's column in all three modes. -/
theorem C1_modes_agree {e : Engine} {nnB : List Nat → List Nat → ℚ}
    {ptB : Nat → List Nat → ℚ} {k : Nat} (hwf : WF e)
    (hnn : nnContract e nnB = true) (hpt : ptContract e ptB = true)
    (hk0 : k ≠ 0) (hk : k ≤ eligibleCount e) :
    ∃ eN colsN eS colsS eD colsD,
      Search { e with naive := true, singleMode := false } nnB ptB k
        = .ok (eN, colsN) ∧
      Search { e with naive := false, singleMode := true } nnB ptB k
        = .ok (eS, colsS) ∧
      Search { e with naive := false, singleMode := false } nnB ptB k
        = .ok (eD, colsD) ∧
      distanceMatrix colsS = distanceMatrix colsN ∧
      distanceMatrix colsD = distanceMatrix colsN ∧
      (∀ oi < e.qryPts.length, ∀ r < e.refPts.length,
        (e.sameSet = true → r ≠ oi) →
        ∀ w, ((colsN.getD oi []).getLast?).map Prod.snd = some w →
        e.pol.isBetter
          (e.metric (e.qryPts.getD oi []) (e.refPts.getD r [])) w = true →
        r ∈ (colsN.getD oi []).map Prod.fst ∧
        r ∈ (colsS.getD oi []).map Prod.fst ∧
        r ∈ (colsD.getD oi []).map Prod.fst) := by
  have hwfN : WF { e with naive := true, singleMode := false } :=
    ⟨hwf.permR, hwf.permQ, hwf.treeR, hwf.treeQ, hwf.same⟩
  have hwfS : WF { e with naive := false, singleMode := true } :=
    ⟨hwf.permR, hwf.permQ, hwf.treeR, hwf.treeQ, hwf.same⟩
  have hwfD : WF { e with naive := false, singleMode := false } :=
    ⟨hwf.permR, hwf.permQ, hwf.treeR, hwf.treeQ, hwf.same⟩
  have hokN := Search_ok_of_valid { e with naive := true, singleMode := false }
    nnB ptB hk0 hk
  have hokS := Search_ok_of_valid { e with naive := false, singleMode := true }
    nnB ptB hk0 hk
  have hokD := Search_ok_of_valid { e with naive := false, singleMode := false }
    nnB ptB hk0 hk
  refine ⟨_, _, _, _, _, _, hokN, hokS, hokD, ?_, ?_, ?_⟩
  · exact (Search_distanceMatrix hwfS hnn hpt hokS).trans
      (Search_distanceMatrix hwfN hnn hpt hokN).symm
  · exact (Search_distanceMatrix hwfD hnn hpt hokD).trans
      (Search_distanceMatrix hwfN hnn hpt hokN).symm
  · intro oi hoi r hr hne w hw hbetter
    rw [cols_getD hoi, outColumn_getLast_snd] at hw
    have hqi : newFromOld e.oldFromNewQueries oi < e.qryPts.length :=
      newFromOld_lt hwf.permQ hoi
    have hsndN := @runSearchMode_dists { e with naive := true, singleMode := false }
      nnB ptB k hwfN hnn hpt _ hqi
    have hsndS := @runSearchMode_dists { e with naive := false, singleMode := true }
      nnB ptB k hwfS hnn hpt _ hqi
    have hsndD := @runSearchMode_dists { e with naive := false, singleMode := false }
      nnB ptB k hwfD hnn hpt _ hqi
    have hw' := hw
    rw [hsndN] at hw'
    have hwS : (((runSearchMode { e with naive := false, singleMode := true }
        nnB ptB k).2 (newFromOld e.oldFromNewQueries oi)).map Prod.snd).getLast?
        = some w := by
      rw [hsndS]
      exact hw'
    have hwD : (((runSearchMode { e with naive := false, singleMode := false }
        nnB ptB k).2 (newFromOld e.oldFromNewQueries oi)).map Prod.snd).getLast?
        = some w := by
      rw [hsndD]
      exact hw'
    refine ⟨?_, ?_, ?_⟩
    · rw [cols_getD hoi]
      exact mode_no_loss hwfN hnn hpt hoi hr hne hw hbetter
    · rw [cols_getD hoi]
      exact mode_no_loss hwfS hnn hpt hoi hr hne hwS hbetter
    · rw [cols_getD hoi]
      exact mode_no_loss hwfD hnn hpt hoi hr hne hwD hbetter

/-- Witness for C1 on the concrete fixture (k = 2, same-set, leaf size 2). -/
theorem C1_modes_agree_witness :
    ∃ eN colsN eS colsS eD colsD,
      Search { wEngine false false with naive := true, singleMode := false }
        wnnB wptB 2 = .ok (eN, colsN) ∧
      Search { wEngine false false with naive := false, singleMode := true }
        wnnB wptB 2 = .ok (eS, colsS) ∧
      Search { wEngine false false with naive := false, singleMode := false }
        wnnB wptB 2 = .ok (eD, colsD) ∧
      distanceMatrix colsS = distanceMatrix colsN ∧
      distanceMatrix colsD = distanceMatrix colsN ∧
      (∀ oi < (wEngine false false).qryPts.length,
        ∀ r < (wEngine false false).refPts.length,
        ((wEngine false false).sameSet = true → r ≠ oi) →
        ∀ w, ((colsN.getD oi []).getLast?).map Prod.snd = some w →
        (wEngine false false).pol.isBetter
          ((wEngine false false).metric ((wEngine false false).qryPts.getD oi [])
            ((wEngine false false).refPts.getD r [])) w = true →
        r ∈ (colsN.getD oi []).map Prod.fst ∧
        r ∈ (colsS.getD oi []).map Prod.fst ∧
        r ∈ (colsD.getD oi []).map Prod.fst) :=
  C1_modes_agree (wEngine_WF false false) (wContract_nn false false)
    (wContract_pt false false) (by decide) (by decide)

/-! ### C4 -/

/-- C4: in same-set mode, the output column of a query point never contains
the query's own index — the base case skips same-index pairs — so the zero
self-distance of the pair (i, i) never appears in the output. -/
theorem C4_sameset_self_excluded {e : Engine} {nnB : List Nat → List Nat → ℚ}
    {ptB : Nat → List Nat → ℚ} {k : Nat} {e' : Engine}
    {cols : List (List (Nat × ℚ))} (hwf : WF e)
    (hnn : nnContract e nnB = true) (hpt : ptContract e ptB = true)
    (hsame : e.sameSet = true)
    (h : Search e nnB ptB k = .ok (e', cols)) :
    ∀ oi < e.qryPts.length, ∀ p ∈ cols.getD oi [], p.1 ≠ oi := by
  obtain ⟨-, hcols, -, -⟩ := Search_ok_elim h
  subst hcols
  intro oi hoi p hp
  rw [cols_getD hoi] at hp
  have hqi : newFromOld e.oldFromNewQueries oi < e.qryPts.length :=
    newFromOld_lt hwf.permQ hoi
  obtain ⟨E, hE, hinv⟩ := runSearchMode_CLInv hwf hnn hpt hqi
  unfold outColumn at hp
  rcases List.mem_map.1 hp with ⟨q, hq, hqeq⟩
  have hqE := hE.subset (hinv.mem_elig q hq)
  rw [mem_eligOf] at hqE
  have hq1lt : q.1 < e.refPts.length := List.mem_range.1 hqE.1
  have hqne : q.1 ≠ newFromOld e.oldFromNewQueries oi :=
    fun hEq => hqE.2 ⟨hsame, hEq⟩
  intro hcon
  apply hqne
  have hsame' := hwf.same hsame
  have hoi' : oi < e.refPts.length := by
    rw [← hsame'.1]
    exact hoi
  have h1 : e.oldFromNewReferences.getD q.1 0 = oi := by
    rw [← hcon, ← hqeq]
  have h2 : e.oldFromNewReferences.getD (newFromOld e.oldFromNewReferences oi) 0
      = oi := getD_newFromOld hwf.permR hoi'
  have hndR : e.oldFromNewReferences.Nodup :=
    hwf.permR.nodup_iff.2 (List.nodup_range _)
  have hlenR : e.oldFromNewReferences.length = e.refPts.length := by
    rw [hwf.permR.length_eq, List.length_range]
  have hq1eq : q.1 = newFromOld e.oldFromNewReferences oi :=
    getD_inj_of_nodup hndR (by omega)
      (by rw [hlenR]; exact newFromOld_lt hwf.permR hoi') (h1.trans h2.symm)
  rw [hsame'.2]
  exact hq1eq

/-- Witness for C4 on the fixture (dual-tree same-set mode, k = 2). -/
theorem C4_sameset_self_excluded_witness :
    (wEngine false false).sameSet = true ∧
    (∀ oi < (wEngine false false).qryPts.length,
      ∀ p ∈ wSearchD.2.getD oi [], p.1 ≠ oi) :=
  ⟨rfl, C4_sameset_self_excluded (wEngine_WF false false) (wContract_nn false false)
    (wContract_pt false false) rfl wSearchD_ok⟩

end Mlpack
